import Mathlib

/-!
# openshift-api-group: the group-rewriting reverse proxy (`main.go`)

A shallow embedding of the request pipeline of `main.go` and of the library
behaviour it relies on.

* Byte strings (`[]byte`, HTTP bodies) are lists of natural numbers, each
  below 256 on real inputs.
* Go strings that hold text produced by the JSON decoder are Lean `String`s:
  the decoder coerces every string to well-formed UTF-8, so such a value is
  a sequence of Unicode scalar values.
* `encoding/json` is embedded as an executable reader and writer.  Only the
  conversion between a number literal and a `float64` is left as a parameter
  (`Float64Lib`), since binary floating point has no place in this
  development.
* `http.Header` is an association list from keys to value lists, handlers are
  functions, and calls to the inner handler are recorded in a call log.
* Functions of the Go standard library and of `k8s.io/apimachinery` that
  `main.go` calls are embedded after their own sources, each under a comment
  that names it.

Definitions come first, then the lemmas about the JSON reader and writer, then
the properties of `changeGroup` and of the handlers.
-/

namespace OpenshiftApiGroup

/-! ## Byte strings and UTF-8 (`unicode/utf8`) -/

/-- A byte string; every element is below 256 on inputs the program can receive. -/
abbrev Bytes := List Nat

/-- The replacement rune `utf8.RuneError` (U+FFFD). -/
def runeError : Nat := 0xFFFD

/-- Model of `utf8.EncodeRune` on a Unicode scalar value given by its number. -/
def encodeRune (n : Nat) : Bytes :=
  if n < 0x80 then [n]
  else if n < 0x800 then [0xC0 + n / 64, 0x80 + n % 64]
  else if n < 0x10000 then [0xE0 + n / 4096, 0x80 + n / 64 % 64, 0x80 + n % 64]
  else [0xF0 + n / 262144, 0x80 + n / 4096 % 64, 0x80 + n / 64 % 64, 0x80 + n % 64]

/-- The bytes of a Go string holding the text `s`. -/
def utf8Bytes (s : String) : Bytes := s.data.flatMap (fun c => encodeRune c.toNat)

/-- Continuation byte test (`locb <= b <= hicb`). -/
def isCont (b : Nat) : Bool := 0x80 ≤ b && b ≤ 0xBF

/-- Model of `utf8.DecodeRune`: the rune at the head of `p` and its width in
bytes; an invalid or truncated sequence yields `(runeError, 1)`.  The
second-byte ranges are those of the table `acceptRanges`. -/
def decodeRune (p : Bytes) : Nat × Nat :=
  match p with
  | [] => (runeError, 0)
  | p0 :: t =>
    if p0 < 0x80 then (p0, 1)
    else if p0 < 0xC2 then (runeError, 1)
    else if p0 < 0xE0 then
      match t with
      | b1 :: _ => if isCont b1 then ((p0 - 0xC0) * 64 + (b1 - 0x80), 2) else (runeError, 1)
      | _ => (runeError, 1)
    else if p0 < 0xF0 then
      match t with
      | b1 :: b2 :: _ =>
        let lo := if p0 = 0xE0 then 0xA0 else 0x80
        let hi := if p0 = 0xED then 0x9F else 0xBF
        if lo ≤ b1 && b1 ≤ hi && isCont b2 then
          ((p0 - 0xE0) * 4096 + (b1 - 0x80) * 64 + (b2 - 0x80), 3)
        else (runeError, 1)
      | _ => (runeError, 1)
    else if p0 < 0xF5 then
      match t with
      | b1 :: b2 :: b3 :: _ =>
        let lo := if p0 = 0xF0 then 0x90 else 0x80
        let hi := if p0 = 0xF4 then 0x8F else 0xBF
        if lo ≤ b1 && b1 ≤ hi && isCont b2 && isCont b3 then
          ((p0 - 0xF0) * 262144 + (b1 - 0x80) * 4096 + (b2 - 0x80) * 64 + (b3 - 0x80), 4)
        else (runeError, 1)
      | _ => (runeError, 1)
    else (runeError, 1)

/-! ## Errors -/

/-- The errors of `json.Decoder.Decode`. -/
inductive DecodeError where
  /-- The error `io.EOF`: the body holds no JSON value at all. -/
  | eof
  /-- The error `io.ErrUnexpectedEOF`: the body ends inside a JSON value. -/
  | unexpectedEOF
  /-- A `*json.SyntaxError`: offending byte and the scanner's context. -/
  | invalidCharacter (c : Nat) (context : String)
  /-- A `*json.UnmarshalTypeError`: JSON value kind and Go type. -/
  | unmarshalType (value : String) (goType : String)
  /-- The recursion budget of the embedded reader is exhausted; `readValue`
  never returns it (`readValue_budget`). -/
  | outOfFuel
  deriving DecidableEq, Repr

/-- The values of Go's `error` interface that the program can produce. -/
inductive GoError where
  /-- An error of the JSON decoder. -/
  | decode (e : DecodeError)
  /-- The error of `schema.ParseGroupVersion`, carrying the offending string. -/
  | groupVersion (gv : String)
  deriving DecidableEq, Repr

/-- Model of `quoteChar` of `encoding/json` for the bytes it is used on here
(printable ASCII); other bytes are shown by their character. -/
def quoteChar (c : Nat) : String :=
  if c = 0x27 then "'\\''"
  else if c = 0x22 then "'\"'"
  else "'" ++ String.singleton (Char.ofNat c) ++ "'"

/-- The message of a decoder error. -/
def DecodeError.Error : DecodeError → String
  | .eof => "EOF"
  | .unexpectedEOF => "unexpected EOF"
  | .invalidCharacter c context => "invalid character " ++ quoteChar c ++ " " ++ context
  | .unmarshalType value goType =>
    "json: cannot unmarshal " ++ value ++ " into Go value of type " ++ goType
  | .outOfFuel => "exceeded max depth"

/-- The method `Error()`: the message of an error value. -/
def GoError.Error : GoError → String
  | .decode e => e.Error
  | .groupVersion gv => "unexpected GroupVersion string: " ++ gv

/-! ## JSON values (`encoding/json`) -/

/-- A JSON value.  With `N := Bytes` it is the syntax tree found by the
scanner (number literals kept as text, object members in document order);
with `N := F` it is a Go value of type `interface{}` built by the decoder,
where an object is a `map[string]interface{}`, stored as an association list
sorted by key without duplicates. -/
inductive JValue (N : Type) where
  | null
  | bool (b : Bool)
  | num (n : N)
  | str (s : String)
  | arr (xs : List (JValue N))
  | obj (kvs : List (String × JValue N))

/-- The scanner's syntax tree. -/
abbrev Raw := JValue Bytes

/-- The Go variable `manifest` of type `map[string]interface{}`; `none` is the nil map. -/
abbrev Manifest (F : Type) := Option (List (String × JValue F))

/-- The two conversions of `strconv` used by `encoding/json`, for an
unspecified type `F` of finite `float64` values: `parseFloat` is
`strconv.ParseFloat(s, 64)` on a literal the scanner accepted (`none` when
the value is out of range), `formatFloat` is the encoder's rendering. -/
structure Float64Lib (F : Type) where
  parseFloat : Bytes → Option F
  formatFloat : F → Bytes

/-- Lexicographic order on code point sequences. -/
def lexLt : List Nat → List Nat → Bool
  | _, [] => false
  | [], _ :: _ => true
  | a :: as, b :: bs => a < b || (a = b && lexLt as bs)

/-- Strict order on map keys: Go compares strings bytewise, which on
well-formed UTF-8 is the order of the code point sequences. -/
def keyLt (a b : String) : Bool := lexLt (a.data.map Char.toNat) (b.data.map Char.toNat)

/-- The map assignment `m[k] = v` on the sorted association list. -/
def mapInsert {α : Type} (k : String) (v : α) : List (String × α) → List (String × α)
  | [] => [(k, v)]
  | (k', v') :: t =>
    if k = k' then (k, v) :: t
    else if keyLt k k' then (k, v) :: (k', v') :: t
    else (k', v') :: mapInsert k v t

/-- The map index expression `m[k]`. -/
def mapLookup {α : Type} (k : String) : List (String × α) → Option α
  | [] => none
  | (k', v') :: t => if k = k' then some v' else mapLookup k t

/-! ## The JSON reader (`json.Decoder.Decode`) -/

/-- JSON white space: space, tab, carriage return, line feed. -/
def isSpace (c : Nat) : Bool := c = 0x20 || c = 0x09 || c = 0x0D || c = 0x0A

/-- Drop leading white space. -/
def skipSpace : Bytes → Bytes
  | [] => []
  | c :: t => if isSpace c then skipSpace t else c :: t

/-- Read the remaining letters `expected` of the literal `lit`. -/
def scanLiteral (lit : String) : List Char → Bytes → Except DecodeError Bytes
  | [], inp => .ok inp
  | _ :: _, [] => .error .unexpectedEOF
  | e :: es, c :: t =>
    if c = e.toNat then scanLiteral lit es t
    else .error (.invalidCharacter c ("in literal " ++ lit ++ " (expecting '" ++ String.singleton e ++ "')"))

/-- ASCII digit test. -/
def isDigit (c : Nat) : Bool := 0x30 ≤ c && c ≤ 0x39

/-- States of the scanner inside a number (`stateNeg`, `state0`, `state1`,
`stateDot`, `stateDot0`, `stateE`, `stateESign`, `stateE0`). -/
inductive NumState where
  | neg | zero | int | dot | frac | exp | expSign | expDigits
  deriving DecidableEq, Repr

/-- One scanner step inside a number; `none` when the byte does not continue it. -/
def NumState.step : NumState → Nat → Option NumState
  | .neg, c => if c = 0x30 then some .zero else if 0x31 ≤ c && c ≤ 0x39 then some .int else none
  | .int, c =>
    if isDigit c then some .int else if c = 0x2E then some .dot
    else if c = 0x65 || c = 0x45 then some .exp else none
  | .zero, c => if c = 0x2E then some .dot else if c = 0x65 || c = 0x45 then some .exp else none
  | .dot, c => if isDigit c then some .frac else none
  | .frac, c => if isDigit c then some .frac else if c = 0x65 || c = 0x45 then some .exp else none
  | .exp, c => if c = 0x2B || c = 0x2D then some .expSign else if isDigit c then some .expDigits else none
  | .expSign, c => if isDigit c then some .expDigits else none
  | .expDigits, c => if isDigit c then some .expDigits else none

/-- States in which the number read so far is complete. -/
def NumState.accepting : NumState → Bool
  | .zero | .int | .frac | .expDigits => true
  | _ => false

/-- The scanner's complaint when a number breaks off in the given state. -/
def NumState.context : NumState → String
  | .neg => "in numeric literal"
  | .dot => "after decimal point in numeric literal"
  | .exp | .expSign => "in exponent of numeric literal"
  | _ => "after top-level value"

/-- Read the rest of a number: `acc` holds the bytes read so far.  Returns the
literal and the unread input. -/
def scanNumber (st : NumState) (acc : Bytes) : Bytes → Except DecodeError (Bytes × Bytes)
  | [] => if st.accepting then .ok (acc, []) else .error .unexpectedEOF
  | c :: t =>
    match st.step c with
    | some st' => scanNumber st' (acc ++ [c]) t
    | none => if st.accepting then .ok (acc, c :: t) else .error (.invalidCharacter c st.context)

/-- Value of a hexadecimal digit. -/
def hexVal (c : Nat) : Option Nat :=
  if isDigit c then some (c - 0x30)
  else if 0x61 ≤ c && c ≤ 0x66 then some (c - 0x61 + 10)
  else if 0x41 ≤ c && c ≤ 0x46 then some (c - 0x41 + 10)
  else none

/-- Read the four hexadecimal digits of a `\u` escape. -/
def scanHex4 : Nat → Nat → Bytes → Except DecodeError (Nat × Bytes)
  | 0, acc, inp => .ok (acc, inp)
  | _ + 1, _, [] => .error .unexpectedEOF
  | k + 1, acc, c :: t =>
    match hexVal c with
    | some d => scanHex4 k (acc * 16 + d) t
    | none => .error (.invalidCharacter c "in \\u hexadecimal character escape")

/-- Model of `getu4`: the value of a complete `\uXXXX` escape at the head of the input. -/
def getu4 : Bytes → Option (Nat × Bytes)
  | 0x5C :: 0x75 :: t =>
    match scanHex4 4 0 t with
    | .ok r => some r
    | .error _ => none
  | _ => none

/-- The character of a one-letter escape. -/
def simpleEscape (c : Nat) : Option Char :=
  if c = 0x22 then some '"' else if c = 0x5C then some '\\' else if c = 0x2F then some '/'
  else if c = 0x62 then some (Char.ofNat 8) else if c = 0x66 then some (Char.ofNat 12)
  else if c = 0x6E then some '\n' else if c = 0x72 then some '\r' else if c = 0x74 then some '\t'
  else none

/-- Read a string literal after its opening quote (the scanner's
`stateInString` together with `unquote`): escapes are resolved, a surrogate
pair is combined, a lone surrogate and every invalid UTF-8 sequence become
U+FFFD.  `acc` holds the characters read so far. -/
def parseString : Nat → Bytes → List Char → Except DecodeError (String × Bytes)
  | 0, _, _ => .error .outOfFuel
  | _ + 1, [], _ => .error .unexpectedEOF
  | n + 1, c :: t, acc =>
    if c = 0x22 then .ok (String.mk acc, t)
    else if c = 0x5C then
      match t with
      | [] => .error .unexpectedEOF
      | e :: t' =>
        if e = 0x75 then
          match scanHex4 4 0 t' with
          | .error err => .error err
          | .ok (rr, t'') =>
            if 0xD800 ≤ rr && rr < 0xE000 then
              match getu4 t'' with
              | some (rr1, t3) =>
                if rr < 0xDC00 && 0xDC00 ≤ rr1 && rr1 < 0xE000 then
                  parseString n t3
                    (acc ++ [Char.ofNat ((rr - 0xD800) * 1024 + (rr1 - 0xDC00) + 0x10000)])
                else parseString n t'' (acc ++ [Char.ofNat runeError])
              | none => parseString n t'' (acc ++ [Char.ofNat runeError])
            else parseString n t'' (acc ++ [Char.ofNat rr])
        else
          match simpleEscape e with
          | some ch => parseString n t' (acc ++ [ch])
          | none => .error (.invalidCharacter e "in string escape code")
    else if c < 0x20 then .error (.invalidCharacter c "in string literal")
    else if c < 0x80 then parseString n t (acc ++ [Char.ofNat c])
    else
      let r := decodeRune (c :: t)
      parseString n (t.drop (r.2 - 1)) (acc ++ [Char.ofNat r.1])

mutual
/-- Read one JSON value, skipping leading white space; returns the syntax
tree and the unread input. -/
def parseValue : Nat → Bytes → Except DecodeError (Raw × Bytes)
  | 0, _ => .error .outOfFuel
  | n + 1, inp =>
    match skipSpace inp with
    | [] => .error .unexpectedEOF
    | c :: t =>
      if c = 0x7B then
        match skipSpace t with
        | [] => .error .unexpectedEOF
        | c' :: t' => if c' = 0x7D then .ok (.obj [], t') else parseMembers n (c' :: t') []
      else if c = 0x5B then
        match skipSpace t with
        | [] => .error .unexpectedEOF
        | c' :: t' => if c' = 0x5D then .ok (.arr [], t') else parseElems n (c' :: t') []
      else if c = 0x22 then
        match parseString (t.length + 1) t [] with
        | .ok (s, rest) => .ok (.str s, rest)
        | .error e => .error e
      else if c = 0x2D then
        match scanNumber .neg [c] t with
        | .ok (lit, rest) => .ok (.num lit, rest)
        | .error e => .error e
      else if c = 0x30 then
        match scanNumber .zero [c] t with
        | .ok (lit, rest) => .ok (.num lit, rest)
        | .error e => .error e
      else if 0x31 ≤ c && c ≤ 0x39 then
        match scanNumber .int [c] t with
        | .ok (lit, rest) => .ok (.num lit, rest)
        | .error e => .error e
      else if c = 0x74 then
        match scanLiteral "true" ['r', 'u', 'e'] t with
        | .ok rest => .ok (.bool true, rest)
        | .error e => .error e
      else if c = 0x66 then
        match scanLiteral "false" ['a', 'l', 's', 'e'] t with
        | .ok rest => .ok (.bool false, rest)
        | .error e => .error e
      else if c = 0x6E then
        match scanLiteral "null" ['u', 'l', 'l'] t with
        | .ok rest => .ok (.null, rest)
        | .error e => .error e
      else .error (.invalidCharacter c "looking for beginning of value")
/-- Read the elements of a non-empty array up to its closing bracket. -/
def parseElems : Nat → Bytes → List Raw → Except DecodeError (Raw × Bytes)
  | 0, _, _ => .error .outOfFuel
  | n + 1, inp, acc =>
    match parseValue n inp with
    | .error e => .error e
    | .ok (v, rest) =>
      match skipSpace rest with
      | [] => .error .unexpectedEOF
      | c :: t =>
        if c = 0x2C then parseElems n t (acc ++ [v])
        else if c = 0x5D then .ok (.arr (acc ++ [v]), t)
        else .error (.invalidCharacter c "after array element")
/-- Read the members of a non-empty object up to its closing brace. -/
def parseMembers : Nat → Bytes → List (String × Raw) → Except DecodeError (Raw × Bytes)
  | 0, _, _ => .error .outOfFuel
  | n + 1, inp, acc =>
    match skipSpace inp with
    | [] => .error .unexpectedEOF
    | q :: t0 =>
      if q ≠ 0x22 then .error (.invalidCharacter q "looking for beginning of object key string")
      else
        match parseString (t0.length + 1) t0 [] with
        | .error e => .error e
        | .ok (k, rest0) =>
          match skipSpace rest0 with
          | [] => .error .unexpectedEOF
          | colon :: t1 =>
            if colon ≠ 0x3A then .error (.invalidCharacter colon "after object key")
            else
              match parseValue n t1 with
              | .error e => .error e
              | .ok (v, rest) =>
                match skipSpace rest with
                | [] => .error .unexpectedEOF
                | c :: t =>
                  if c = 0x2C then parseMembers n t (acc ++ [(k, v)])
                  else if c = 0x7D then .ok (.obj (acc ++ [(k, v)]), t)
                  else .error (.invalidCharacter c "after object key:value pair")
end

/-- The Go type of the decoding target, as printed in error messages. -/
def manifestType : String := "map[string]interface \x7b\x7d"

mutual
/-- Build the Go value of a syntax tree (`valueInterface`): numbers are
converted with `parseFloat`, object members are assigned to a fresh map in
document order, so a later duplicate key overwrites an earlier one. -/
def buildValue {F : Type} (fl : Float64Lib F) : Raw → Except DecodeError (JValue F)
  | .null => .ok .null
  | .bool b => .ok (.bool b)
  | .num lit =>
    match fl.parseFloat lit with
    | some f => .ok (.num f)
    | none => .error (.unmarshalType ("number " ++ String.mk (lit.map Char.ofNat)) "float64")
  | .str s => .ok (.str s)
  | .arr xs =>
    match buildElems fl xs with
    | .ok vs => .ok (.arr vs)
    | .error e => .error e
  | .obj kvs =>
    match buildMembers fl kvs [] with
    | .ok m => .ok (.obj m)
    | .error e => .error e
/-- Build the elements of an array in order. -/
def buildElems {F : Type} (fl : Float64Lib F) : List Raw → Except DecodeError (List (JValue F))
  | [] => .ok []
  | x :: xs =>
    match buildValue fl x with
    | .error e => .error e
    | .ok v =>
      match buildElems fl xs with
      | .ok vs => .ok (v :: vs)
      | .error e => .error e
/-- Assign the members of an object, in document order, to the map `acc`. -/
def buildMembers {F : Type} (fl : Float64Lib F) :
    List (String × Raw) → List (String × JValue F) → Except DecodeError (List (String × JValue F))
  | [], acc => .ok acc
  | (k, x) :: rest, acc =>
    match buildValue fl x with
    | .error e => .error e
    | .ok v => buildMembers fl rest (mapInsert k v acc)
end

/-- Model of `Decoder.readValue` on a fresh decoder: the syntax tree of the
first JSON value of the stream.  Bytes after that value are left unread.  A
stream with nothing but white space gives `io.EOF`; one that ends inside a
value gives `io.ErrUnexpectedEOF`.  The budget handed to `parseValue` is
enough for every input, and no limit on nesting is imposed (later Go releases
refuse values nested deeper than 10000 levels). -/
def readValue (src : Bytes) : Except DecodeError Raw :=
  match skipSpace src with
  | [] => .error .eof
  | _ :: _ =>
    match parseValue (2 * src.length + 1) src with
    | .error e => .error e
    | .ok (raw, _) => .ok raw

/-- Storing the value read into `var manifest map[string]interface{}`: an
object fills the map, `null` leaves it nil, any other value is an
`UnmarshalTypeError`. -/
def unmarshalManifest {F : Type} (fl : Float64Lib F) : Raw → Except DecodeError (Manifest F)
  | .null => .ok none
  | .obj kvs =>
    match buildMembers fl kvs [] with
    | .ok m => .ok (some m)
    | .error e => .error e
  | .arr _ => .error (.unmarshalType "array" manifestType)
  | .str _ => .error (.unmarshalType "string" manifestType)
  | .num _ => .error (.unmarshalType "number" manifestType)
  | .bool _ => .error (.unmarshalType "bool" manifestType)

/-- Model of `json.NewDecoder(src).Decode(&manifest)`. -/
def decodeManifest {F : Type} (fl : Float64Lib F) (src : Bytes) : Except DecodeError (Manifest F) :=
  match readValue src with
  | .error e => .error e
  | .ok raw => unmarshalManifest fl raw

/-! ## The JSON writer (`json.Encoder.Encode`) -/

/-- Lower-case hexadecimal digit. -/
def hexDigit (n : Nat) : Nat := if n < 10 then 0x30 + n else 0x61 + (n - 10)

/-- The bytes the encoder writes for one character of a string, with the
encoder's default HTML escaping: quote and backslash get a backslash; line
feed, carriage return and tab their letter; other control characters and
`<`, `>`, `&` the form `\u00XX`; U+2028 and U+2029 the form `\u202X`; every
other character its UTF-8 bytes.  (Later Go releases write backspace and form
feed as `\b` and `\f`, which read back to the same characters.) -/
def encodeChar (c : Char) : Bytes :=
  let n := c.toNat
  if n < 0x80 then
    if n = 0x22 || n = 0x5C then [0x5C, n]
    else if n = 0x0A then [0x5C, 0x6E]
    else if n = 0x0D then [0x5C, 0x72]
    else if n = 0x09 then [0x5C, 0x74]
    else if n < 0x20 || n = 0x3C || n = 0x3E || n = 0x26 then
      [0x5C, 0x75, 0x30, 0x30, hexDigit (n / 16), hexDigit (n % 16)]
    else [n]
  else if n = 0x2028 || n = 0x2029 then [0x5C, 0x75, 0x32, 0x30, 0x32, hexDigit (n % 16)]
  else encodeRune n

/-- The characters of a string literal followed by its closing quote. -/
def encodeChars : List Char → Bytes
  | [] => [0x22]
  | c :: cs => encodeChar c ++ encodeChars cs

/-- A quoted string literal. -/
def encodeString (s : String) : Bytes := 0x22 :: encodeChars s.data

mutual
/-- The encoding of a Go value: no white space, object members in key order. -/
def encodeValue {F : Type} (fl : Float64Lib F) : JValue F → Bytes
  | .null => [0x6E, 0x75, 0x6C, 0x6C]
  | .bool true => [0x74, 0x72, 0x75, 0x65]
  | .bool false => [0x66, 0x61, 0x6C, 0x73, 0x65]
  | .num f => fl.formatFloat f
  | .str s => encodeString s
  | .arr [] => [0x5B, 0x5D]
  | .arr (x :: xs) => 0x5B :: (encodeValue fl x ++ encodeElems fl xs)
  | .obj [] => [0x7B, 0x7D]
  | .obj ((k, x) :: kvs) =>
    0x7B :: (encodeString k ++ 0x3A :: (encodeValue fl x ++ encodeMembers fl kvs))
/-- The remaining elements of an array, each after a comma, and the closing bracket. -/
def encodeElems {F : Type} (fl : Float64Lib F) : List (JValue F) → Bytes
  | [] => [0x5D]
  | x :: xs => 0x2C :: (encodeValue fl x ++ encodeElems fl xs)
/-- The remaining members of an object, each after a comma, and the closing brace. -/
def encodeMembers {F : Type} (fl : Float64Lib F) : List (String × JValue F) → Bytes
  | [] => [0x7D]
  | (k, x) :: kvs =>
    0x2C :: (encodeString k ++ 0x3A :: (encodeValue fl x ++ encodeMembers fl kvs))
end

/-- Model of `json.NewEncoder(dest).Encode(manifest)`: the bytes written to
`dest`, which end in a line feed; the nil map is written as `null`.  Writing
to the in-memory destinations used by the program cannot fail. -/
def encodeManifest {F : Type} (fl : Float64Lib F) : Manifest F → Bytes
  | none => [0x6E, 0x75, 0x6C, 0x6C, 0x0A]
  | some kvs => encodeValue fl (.obj kvs) ++ [0x0A]

/-! ## Group and version (`k8s.io/apimachinery/pkg/runtime/schema`) -/

/-- The struct `schema.GroupVersion`. -/
structure GroupVersion where
  Group : String
  Version : String
  deriving DecidableEq, Repr

/-- Model of `schema.ParseGroupVersion`: the empty string and `"/"` give the
empty value, a string without slash is a bare version, a string with one
slash is split there, and more than one slash is an error. -/
def ParseGroupVersion (gv : String) : Except GoError GroupVersion :=
  if gv.data = [] ∨ gv = "/" then .ok ⟨"", ""⟩
  else
    match gv.data.count '/' with
    | 0 => .ok ⟨"", gv⟩
    | 1 =>
      .ok ⟨String.mk (gv.data.takeWhile (fun c => c != '/')),
           String.mk ((gv.data.dropWhile (fun c => c != '/')).drop 1)⟩
    | _ => .error (.groupVersion gv)

/-- Model of `GroupVersion.String`. -/
def GroupVersion.String (gv : GroupVersion) : String :=
  if gv.Group.data = [] ∧ gv.Version.data = [] then ""
  else if gv.Group.data = [] ∧ gv.Version = "v1" then gv.Version
  else if gv.Group.data ≠ [] then gv.Group ++ "/" ++ gv.Version
  else gv.Version

/-! ## HTTP (`net/http`, `net/textproto`, `net/http/httptest`) -/

/-- Model of `validHeaderFieldByte`: the token characters of RFC 7230. -/
def validHeaderFieldByte (c : Char) : Bool :=
  c.isAlphanum || "!#$%&'*+-.^_|~".data.contains c || c = Char.ofNat 0x60

/-- Upper-case the first letter and every letter after a dash, lower-case the rest. -/
def canonicalLetters : Bool → List Char → List Char
  | _, [] => []
  | upper, c :: cs =>
    (if upper then c.toUpper else c.toLower) :: canonicalLetters (c = '-') cs

/-- Model of `textproto.CanonicalMIMEHeaderKey`: a key with a byte that is not
a token character is returned unchanged. -/
def CanonicalMIMEHeaderKey (s : String) : String :=
  if s.data.all validHeaderFieldByte then String.mk (canonicalLetters true s.data) else s

/-- The type `http.Header`, a `map[string][]string`, as an association list. -/
abbrev Header := List (String × List String)

/-- The index expression `h[key]`, nil when the key is absent. -/
def Header.get (h : Header) (key : String) : List String := (mapLookup key h).getD []

/-- The method `Header.Values`. -/
def Header.Values (h : Header) (key : String) : List String :=
  h.get (CanonicalMIMEHeaderKey key)

/-- The method `Header.Add`: append to the values under the canonical key. -/
def Header.Add (h : Header) (key value : String) : Header :=
  mapInsert (CanonicalMIMEHeaderKey key) (h.get (CanonicalMIMEHeaderKey key) ++ [value]) h

/-- The method `Header.Set`: replace the values under the canonical key. -/
def Header.Set (h : Header) (key value : String) : Header :=
  mapInsert (CanonicalMIMEHeaderKey key) [value] h

/-- The fields of `http.Request` the handlers read or write. -/
structure Request where
  Method : String
  Path : String
  Header : Header
  Body : Bytes
  ContentLength : Int

/-- State of an `http.ResponseWriter` (also of an `httptest.ResponseRecorder`):
the header map, the status code once the header has been written, and the
body written so far.  It records what a handler hands to the writer; what the
HTTP server then puts on the wire is not part of the embedding. -/
structure ResponseWriter where
  header : Header
  status : Option Nat
  body : Bytes

/-- The method `WriteHeader`: only the first call takes effect. -/
def ResponseWriter.WriteHeader (w : ResponseWriter) (statusCode : Nat) : ResponseWriter :=
  match w.status with
  | none => { w with status := some statusCode }
  | some _ => w

/-- The method `Write`: writes the header with status 200 first if it has not
been written. -/
def ResponseWriter.Write (w : ResponseWriter) (b : Bytes) : ResponseWriter :=
  let w := w.WriteHeader 200
  { w with body := w.body ++ b }

/-- The result of `httptest.NewRecorder()`. -/
def NewRecorder : ResponseWriter := { header := [], status := none, body := [] }

/-- The field `Code` of a recorder: 200 until a header is written. -/
def ResponseWriter.Code (w : ResponseWriter) : Nat := w.status.getD 200

/-- An `http.Handler`: `ServeHTTP(w, req)` as a function of the state of the
response writer and the request, giving the writer's state afterwards. -/
abbrev Handler := ResponseWriter → Request → ResponseWriter

/-- What a middleware did: the response writer afterwards, and the requests it
handed to the inner handler, in order. -/
structure Outcome where
  w : ResponseWriter
  calls : List Request

/-! ## `main.go` -/

/-- The constant `group`. -/
def group : String := "openshift.org"

/-- The constant `http.MethodGet`. -/
def MethodGet : String := "GET"

/-- The constant `http.MethodDelete`. -/
def MethodDelete : String := "DELETE"

/-- The constant `http.StatusInternalServerError`. -/
def StatusInternalServerError : Nat := 500

/-- The function `ErrorResponse(w, err)`: the format verb prints the message
of `err` between the fixed parts of the body. -/
def ErrorResponse (w : ResponseWriter) (err : GoError) : ResponseWriter :=
  let w := { w with header := w.header.Set "Content-Type" "application/json" }
  let w := w.WriteHeader StatusInternalServerError
  w.Write (utf8Bytes ("\x7b\"error\":\"" ++ err.Error ++ "\"\x7d"))

/-- The function `authInjectionHandler(token, h)`. -/
def authInjectionHandler (token : String) (h : Handler) (w : ResponseWriter) (req : Request) :
    Outcome :=
  let req := { req with Header := req.Header.Add "Authorization" ("Bearer " ++ token) }
  { w := h w req, calls := [req] }

/-- The function `changeGroup(group, src, dest)`: the result is the error
returned, or the bytes written to `dest`. -/
def changeGroup {F : Type} (fl : Float64Lib F) (group : String) (src : Bytes) :
    Except GoError Bytes :=
  match decodeManifest fl src with
  | .error err => .error (.decode err)
  | .ok none => .ok (encodeManifest fl none)
  | .ok (some manifest) =>
    match mapLookup "apiVersion" manifest with
    | some (.str apiVersion) =>
      match ParseGroupVersion apiVersion with
      | .error err => .error err
      | .ok gv =>
        let gv : GroupVersion := { gv with Group := group }
        .ok (encodeManifest fl (some (mapInsert "apiVersion" (.str gv.String) manifest)))
    | _ => .ok (encodeManifest fl (some manifest))

/-- The loop of `groupTransformer` that copies the recorded header map into
the header of `w`, one `Add` per value.  Go visits the keys of a map in no
fixed order; the order matters only when two recorded keys have the same
canonical form, and the embedding visits them in the order of the list. -/
def copyHeader (dst : Header) : Header → Header
  | [] => dst
  | (k, v) :: rest => copyHeader (v.foldl (fun d h => Header.Add d k h) dst) rest

/-- The first part of `groupTransformer` (the `if` on the request method):
the request handed on, with body and `ContentLength` replaced when the method
is neither GET nor DELETE, or the error of `changeGroup`. -/
def rewriteRequest {F : Type} (fl : Float64Lib F) (req : Request) : Except GoError Request :=
  if req.Method ≠ MethodGet ∧ req.Method ≠ MethodDelete then
    match changeGroup fl "" req.Body with
    | .error err => .error err
    | .ok buf => .ok { req with ContentLength := (buf.length : Int), Body := buf }
  else .ok req

/-- The function `groupTransformer(h)`. -/
def groupTransformer {F : Type} (fl : Float64Lib F) (h : Handler) (w : ResponseWriter)
    (req : Request) : Outcome :=
  match rewriteRequest fl req with
  | .error err => { w := ErrorResponse w err, calls := [] }
  | .ok req =>
    let res := h NewRecorder req
    match changeGroup fl group res.body with
    | .error err => { w := ErrorResponse w err, calls := [req] }
    | .ok buf =>
      let w := { w with header := copyHeader w.header res.header }
      let w := { w with header := w.header.Set "Content-Length" (toString buf.length) }
      let w := w.WriteHeader res.Code
      { w := w.Write buf, calls := [req] }

/-- The values recorded in the header map `src` under keys whose canonical form is `ck`. -/
def recordedValues (src : Header) (ck : String) : List String :=
  (src.filter (fun e => decide (CanonicalMIMEHeaderKey e.1 = ck))).flatMap (fun e => e.2)

/-! ## Discovery (`k8s.io/apimachinery/pkg/apis/meta/v1`) -/

/-- The struct `metav1.TypeMeta`. -/
structure TypeMeta where
  Kind : String
  APIVersion : String
  deriving DecidableEq, Repr

/-- The struct `metav1.GroupVersionForDiscovery`. -/
structure GroupVersionForDiscovery where
  GroupVersion : String
  Version : String
  deriving DecidableEq, Repr

/-- The struct `metav1.ServerAddressByClientCIDR`. -/
structure ServerAddressByClientCIDR where
  ClientCIDR : String
  ServerAddress : String
  deriving DecidableEq, Repr

/-- The struct `metav1.APIGroup`; the fields the program leaves unset hold
their zero values. -/
structure APIGroup where
  typeMeta : TypeMeta := ⟨"", ""⟩
  Name : String
  Versions : List GroupVersionForDiscovery
  PreferredVersion : GroupVersionForDiscovery
  ServerAddressByClientCIDRs : List ServerAddressByClientCIDR := []
  deriving DecidableEq, Repr

/-- The struct `metav1.APIGroupList`. -/
structure APIGroupList where
  typeMeta : TypeMeta
  Groups : List APIGroup
  deriving DecidableEq, Repr

/-- The typed JSON conversions of `metav1.APIGroupList`, taken as given:
`decode` is `json.NewDecoder(input).Decode(&groupList)` on a zero value,
`encode` the bytes `json.NewEncoder(output).Encode(groupList)` writes. -/
structure GroupListCodec where
  decode : Bytes → Except DecodeError APIGroupList
  encode : APIGroupList → Bytes

/-- The value `openshiftVersion` of `addOpenshiftAPIGroup`. -/
def openshiftVersion : GroupVersionForDiscovery :=
  { GroupVersion := group ++ "/v1", Version := "v1" }

/-- The value `openshiftGroup` of `addOpenshiftAPIGroup`. -/
def openshiftGroup : APIGroup :=
  { Name := group, Versions := [openshiftVersion], PreferredVersion := openshiftVersion }

/-- The function `addOpenshiftAPIGroup(input, output)`: the result is the
error returned, or the bytes written to `output`. -/
def addOpenshiftAPIGroup (codec : GroupListCodec) (input : Bytes) : Except GoError Bytes :=
  match codec.decode input with
  | .error err => .error (.decode err)
  | .ok groupList =>
    let groupList := { groupList with Groups := groupList.Groups ++ [openshiftGroup] }
    .ok (codec.encode groupList)

/-! ## Notions used to state the properties of the reader and the writer -/

/-- The scanner state after the first byte of a number, if the byte can start one. -/
def NumState.start (c : Nat) : Option NumState :=
  if c = 0x2D then some .neg else if c = 0x30 then some .zero
  else if 0x31 ≤ c && c ≤ 0x39 then some .int else none

/-- Run the number scanner over all of `lit`: is the end state accepting. -/
def NumState.run : NumState → Bytes → Bool
  | st, [] => st.accepting
  | st, c :: t =>
    match st.step c with
    | some st' => NumState.run st' t
    | none => false

/-- The byte string is a JSON number literal, by the scanner's own rules. -/
def isNumberLiteral : Bytes → Bool
  | [] => false
  | c :: t =>
    match NumState.start c with
    | some st => st.run t
    | none => false

/-- What the program needs of `strconv`: a formatted `float64` is a JSON
number literal, and parsing it gives the value back. -/
def Float64Lib.Lawful {F : Type} (fl : Float64Lib F) : Prop :=
  ∀ f : F, isNumberLiteral (fl.formatFloat f) = true ∧ fl.parseFloat (fl.formatFloat f) = some f

/-- The keys of an association list are strictly increasing. -/
def SortedKeys {α : Type} (l : List (String × α)) : Prop :=
  List.Pairwise (fun a b => keyLt a.1 b.1 = true) l

mutual
/-- Every object inside the value is a well-formed map: keys strictly increasing. -/
def JValue.Canon {N : Type} : JValue N → Prop
  | .arr xs => canonElems xs
  | .obj kvs => canonMembers kvs ∧ SortedKeys kvs
  | _ => True
/-- Every element is canonical. -/
def canonElems {N : Type} : List (JValue N) → Prop
  | [] => True
  | x :: xs => x.Canon ∧ canonElems xs
/-- Every member value is canonical. -/
def canonMembers {N : Type} : List (String × JValue N) → Prop
  | [] => True
  | (_, x) :: kvs => x.Canon ∧ canonMembers kvs
end

mutual
/-- The syntax tree the writer's output has: numbers as formatted. -/
def rawOf {F : Type} (fl : Float64Lib F) : JValue F → Raw
  | .null => .null
  | .bool b => .bool b
  | .num f => .num (fl.formatFloat f)
  | .str s => .str s
  | .arr xs => .arr (rawElems fl xs)
  | .obj kvs => .obj (rawMembers fl kvs)
/-- The syntax trees of the elements. -/
def rawElems {F : Type} (fl : Float64Lib F) : List (JValue F) → List Raw
  | [] => []
  | x :: xs => rawOf fl x :: rawElems fl xs
/-- The syntax trees of the members. -/
def rawMembers {F : Type} (fl : Float64Lib F) : List (String × JValue F) → List (String × Raw)
  | [] => []
  | (k, x) :: kvs => (k, rawOf fl x) :: rawMembers fl kvs
end

mutual
/-- A bound on the recursion budget the reader needs for the encoding of a value. -/
def JValue.size {N : Type} : JValue N → Nat
  | .arr xs => 1 + sizeElems xs
  | .obj kvs => 1 + sizeMembers kvs
  | _ => 1
/-- Sum over the elements. -/
def sizeElems {N : Type} : List (JValue N) → Nat
  | [] => 0
  | x :: xs => x.size + 1 + sizeElems xs
/-- Sum over the members. -/
def sizeMembers {N : Type} : List (String × JValue N) → Nat
  | [] => 0
  | (_, x) :: kvs => x.size + 1 + sizeMembers kvs
end

/-- A byte the writer puts after a value: comma, closing bracket or brace, line feed. -/
def isDelim (c : Nat) : Bool := c = 0x2C || c = 0x5D || c = 0x7D || c = 0x0A

/-- The reader, given enough budget, finds in the encoding of `v` followed by a
delimiter exactly the tree of `v` and leaves the rest unread. -/
def ReadsBack {F : Type} (fl : Float64Lib F) (v : JValue F) : Prop :=
  ∀ (n d : Nat) (rest : Bytes), v.size ≤ n → isDelim d = true →
    parseValue n (encodeValue fl v ++ d :: rest) = .ok (rawOf fl v, d :: rest)

/-- A number kept as its literal. -/
def NumberLiteral : Type := { lit : Bytes // isNumberLiteral lit = true }

/-- An instance of `Float64Lib` without rounding: a number is its literal.  It
serves to run the embedding on concrete bodies. -/
def exactNumbers : Float64Lib NumberLiteral where
  parseFloat := fun lit => if h : isNumberLiteral lit = true then some ⟨lit, h⟩ else none
  formatFloat := fun f => f.1

/-- The split the specification describes: group and version are the parts of
the identifier before and after its first slash, the group being empty when
there is no slash. -/
def splitFirstSlash (s : String) : String × String :=
  match s.data.dropWhile (fun c => c != '/') with
  | [] => ("", s)
  | _ :: version => (String.mk (s.data.takeWhile (fun c => c != '/')), String.mk version)

/-- The identifier the specification describes for a target group and a version. -/
def groupVersionIdentifier (targetGroup version : String) : String :=
  if targetGroup = "" then version else targetGroup ++ "/" ++ version

/-- A listing with the single group `apps`, used to run `addOpenshiftAPIGroup`. -/
def sampleListing : APIGroupList :=
  { typeMeta := ⟨"APIGroupList", "v1"⟩,
    Groups := [{ Name := "apps", Versions := [⟨"apps/v1", "v1"⟩],
                 PreferredVersion := ⟨"apps/v1", "v1"⟩ }] }

/-- A stand-in for the typed codec of the discovery listing, used to run
`addOpenshiftAPIGroup`: it reads every body as `sampleListing` and writes the
group names, one per line. -/
def sampleCodec : GroupListCodec where
  decode := fun _ => .ok sampleListing
  encode := fun l => l.Groups.flatMap (fun g => utf8Bytes g.Name ++ [0x0A])

/-- An upstream that answers 201 with one header and echoes the request body. -/
def echoUpstream : Handler := fun w req =>
  (({ w with header := w.header.Add "X-Upstream" "1" }).WriteHeader 201).Write req.Body

/-! ## Maps and headers -/

theorem mapLookup_mapInsert {α : Type} (k k' : String) (v : α) (l : List (String × α)) :
    mapLookup k' (mapInsert k v l) = if k' = k then some v else mapLookup k' l := by
  induction l with
  | nil => simp [mapInsert, mapLookup]
  | cons hd t ih =>
    obtain ⟨k0, v0⟩ := hd
    by_cases h1 : k = k0
    · subst h1
      by_cases h2 : k' = k <;> simp [mapInsert, mapLookup, h2]
    · by_cases h3 : keyLt k k0 = true
      · by_cases h2 : k' = k <;> simp [mapInsert, mapLookup, h1, h2, h3]
      · by_cases h2 : k' = k
        · subst h2
          simp [mapInsert, mapLookup, h1, h3, ih]
        · simp [mapInsert, mapLookup, h1, h2, h3, ih]

theorem Header.get_Add (h : Header) (key value k' : String) :
    (h.Add key value).get k' =
      if k' = CanonicalMIMEHeaderKey key then h.get k' ++ [value] else h.get k' := by
  unfold Header.Add Header.get
  rw [mapLookup_mapInsert]
  by_cases hk : k' = CanonicalMIMEHeaderKey key
  · subst hk; simp
  · simp [hk]

theorem Header.get_Set (h : Header) (key value k' : String) :
    (h.Set key value).get k' =
      if k' = CanonicalMIMEHeaderKey key then [value] else h.get k' := by
  unfold Header.Set Header.get
  rw [mapLookup_mapInsert]
  by_cases hk : k' = CanonicalMIMEHeaderKey key <;> simp [hk]

theorem get_foldl_Add (k k' : String) (v : List String) (dst : Header) :
    Header.get (v.foldl (fun d h => Header.Add d k h) dst) k' =
      if k' = CanonicalMIMEHeaderKey k then dst.get k' ++ v else dst.get k' := by
  induction v generalizing dst with
  | nil => simp
  | cons x xs ih =>
    simp only [List.foldl_cons]
    rw [ih, Header.get_Add]
    by_cases hk : k' = CanonicalMIMEHeaderKey k <;> simp [hk]

theorem get_copyHeader (src dst : Header) (ck : String) :
    (copyHeader dst src).get ck = dst.get ck ++ recordedValues src ck := by
  induction src generalizing dst with
  | nil => simp [copyHeader, recordedValues]
  | cons e rest ih =>
    obtain ⟨k, v⟩ := e
    simp only [copyHeader]
    rw [ih, get_foldl_Add]
    by_cases hk : ck = CanonicalMIMEHeaderKey k
    · subst hk
      simp [recordedValues, List.filter_cons]
    · have hk' : ¬ CanonicalMIMEHeaderKey k = ck := fun h => hk h.symm
      simp [recordedValues, List.filter_cons, hk, hk']

/-! ## Order of map keys -/

theorem lexLt_irrefl (a : List Nat) : lexLt a a = false := by
  induction a with
  | nil => rfl
  | cons x xs ih => simp [lexLt, ih]

theorem lexLt_trans : ∀ a b c : List Nat, lexLt a b = true → lexLt b c = true → lexLt a c = true
  | _, [], _, h, _ => by cases ‹List Nat› <;> simp [lexLt] at h
  | _, _ :: _, [], _, h => by simp [lexLt] at h
  | [], _ :: _, _ :: _, _, _ => by simp [lexLt]
  | x :: xs, y :: ys, z :: zs, h1, h2 => by
    simp only [lexLt, Bool.or_eq_true, Bool.and_eq_true, decide_eq_true_eq] at h1 h2 ⊢
    rcases h1 with h1 | ⟨h1, h1'⟩
    · rcases h2 with h2 | ⟨h2, _⟩
      · left; omega
      · left; omega
    · rcases h2 with h2 | ⟨h2, h2'⟩
      · left; omega
      · right; exact ⟨by omega, lexLt_trans xs ys zs h1' h2'⟩

theorem lexLt_total : ∀ a b : List Nat, lexLt a b = false → a ≠ b → lexLt b a = true
  | [], [], _, h => absurd rfl h
  | [], _ :: _, h, _ => by simp [lexLt] at h
  | _ :: _, [], _, _ => by simp [lexLt]
  | x :: xs, y :: ys, h, hne => by
    simp only [lexLt, Bool.or_eq_false_iff, Bool.and_eq_false_imp, decide_eq_false_iff_not,
      decide_eq_true_eq] at h
    simp only [lexLt, Bool.or_eq_true, Bool.and_eq_true, decide_eq_true_eq]
    by_cases hxy : x = y
    · subst hxy
      right
      refine ⟨rfl, lexLt_total xs ys (h.2 rfl) ?_⟩
      intro e; exact hne (by rw [e])
    · left; omega

theorem codes_injective (a b : String) (h : a.data.map Char.toNat = b.data.map Char.toNat) :
    a = b := by
  have hinj : Function.Injective Char.toNat := by
    intro c d hcd
    rw [← Char.ofNat_toNat c, ← Char.ofNat_toNat d, hcd]
  have := List.map_injective_iff.mpr hinj h
  exact String.ext this

theorem keyLt_irrefl (a : String) : keyLt a a = false := lexLt_irrefl _

theorem keyLt_trans (a b c : String) (h1 : keyLt a b = true) (h2 : keyLt b c = true) :
    keyLt a c = true := lexLt_trans _ _ _ h1 h2

theorem keyLt_total (a b : String) (h : keyLt a b = false) (hne : a ≠ b) : keyLt b a = true :=
  lexLt_total _ _ h (fun e => hne (codes_injective a b e))

theorem mem_mapInsert {α : Type} (k : String) (v : α) (l : List (String × α)) (e : String × α)
    (he : e ∈ mapInsert k v l) : e = (k, v) ∨ e ∈ l := by
  induction l with
  | nil => simpa [mapInsert] using he
  | cons hd t ih =>
    obtain ⟨k0, v0⟩ := hd
    unfold mapInsert at he
    split at he
    · simp only [List.mem_cons] at he ⊢
      rcases he with he | he
      · exact Or.inl he
      · exact Or.inr (Or.inr he)
    · split at he
      · simp only [List.mem_cons] at he ⊢
        rcases he with he | he | he
        · exact Or.inl he
        · exact Or.inr (Or.inl he)
        · exact Or.inr (Or.inr he)
      · simp only [List.mem_cons] at he ⊢
        rcases he with he | he
        · exact Or.inr (Or.inl he)
        · rcases ih he with h | h
          · exact Or.inl h
          · exact Or.inr (Or.inr h)

theorem sortedKeys_mapInsert {α : Type} (k : String) (v : α) (l : List (String × α))
    (hl : SortedKeys l) : SortedKeys (mapInsert k v l) := by
  induction l with
  | nil => simp [mapInsert, SortedKeys]
  | cons hd t ih =>
    obtain ⟨k0, v0⟩ := hd
    have hl' := List.pairwise_cons.mp hl
    unfold mapInsert
    split
    · rename_i hk
      subst hk
      exact List.pairwise_cons.mpr ⟨fun b hb => hl'.1 b hb, hl'.2⟩
    · rename_i hk
      split
      · rename_i hlt
        refine List.pairwise_cons.mpr ⟨?_, hl⟩
        intro b hb
        rcases List.mem_cons.mp hb with hb | hb
        · subst hb; exact hlt
        · exact keyLt_trans _ _ _ hlt (hl'.1 b hb)
      · rename_i hlt
        refine List.pairwise_cons.mpr ⟨?_, ih hl'.2⟩
        intro b hb
        rcases mem_mapInsert k v t b hb with hb | hb
        · subst hb
          exact keyLt_total _ _ (by simpa using hlt) hk
        · exact hl'.1 b hb

theorem mapInsert_append {α : Type} (k : String) (v : α) (l : List (String × α))
    (hl : ∀ e ∈ l, keyLt e.1 k = true) : mapInsert k v l = l ++ [(k, v)] := by
  induction l with
  | nil => rfl
  | cons hd t ih =>
    obtain ⟨k0, v0⟩ := hd
    have h0 : keyLt k0 k = true := hl (k0, v0) (List.mem_cons_self _ _)
    have hne : k ≠ k0 := by
      intro e; subst e; rw [keyLt_irrefl] at h0; cases h0
    have hnlt : ¬ keyLt k k0 = true := by
      intro h
      have := keyLt_trans _ _ _ h h0
      rw [keyLt_irrefl] at this; cases this
    simp only [mapInsert, hne, hnlt, if_false, List.cons_append]
    rw [ih (fun e he => hl e (List.mem_cons_of_mem _ he))]
    simp

theorem mapLookup_none_of_lt {α : Type} (k : String) (l : List (String × α))
    (hl : ∀ e ∈ l, keyLt k e.1 = true) : mapLookup k l = none := by
  induction l with
  | nil => rfl
  | cons hd t ih =>
    obtain ⟨k0, v0⟩ := hd
    have h0 : keyLt k k0 = true := hl (k0, v0) (List.mem_cons_self _ _)
    have hne : k ≠ k0 := by
      intro e; subst e; rw [keyLt_irrefl] at h0; cases h0
    simp only [mapLookup, hne, if_false]
    exact ih (fun e he => hl e (List.mem_cons_of_mem _ he))

theorem mapInsert_of_lookup {α : Type} (k : String) (v : α) (l : List (String × α))
    (hl : SortedKeys l) (hk : mapLookup k l = some v) : mapInsert k v l = l := by
  induction l with
  | nil => simp [mapLookup] at hk
  | cons hd t ih =>
    obtain ⟨k0, v0⟩ := hd
    have hl' := List.pairwise_cons.mp hl
    by_cases h1 : k = k0
    · subst h1
      simp only [mapLookup, if_true, Option.some.injEq] at hk
      subst hk
      simp [mapInsert]
    · simp only [mapLookup, h1, if_false] at hk
      have hnlt : ¬ keyLt k k0 = true := by
        intro h
        have : mapLookup k t = none :=
          mapLookup_none_of_lt k t (fun e he => keyLt_trans _ _ _ h (hl'.1 e he))
        rw [this] at hk; cases hk
      simp only [mapInsert, h1, hnlt, if_false]
      rw [ih hl'.2 hk]
      simp

theorem mapInsert_mapInsert {α : Type} (k : String) (v v' : α) (l : List (String × α)) :
    mapInsert k v (mapInsert k v' l) = mapInsert k v l := by
  induction l with
  | nil => simp [mapInsert]
  | cons hd t ih =>
    obtain ⟨k0, v0⟩ := hd
    by_cases h1 : k = k0
    · subst h1; simp [mapInsert]
    · by_cases h2 : keyLt k k0 = true
      · simp [mapInsert, h1, h2]
      · simp [mapInsert, h1, h2, ih]

/-! ## Structural induction on values -/

mutual
theorem JValue.induct_value {N : Type} {P : JValue N → Prop}
    (hnull : P .null) (hbool : ∀ b, P (.bool b)) (hnum : ∀ n, P (.num n))
    (hstr : ∀ s, P (.str s))
    (harr : ∀ xs, (∀ x ∈ xs, P x) → P (.arr xs))
    (hobj : ∀ kvs, (∀ kv ∈ kvs, P kv.2) → P (.obj kvs)) : ∀ v : JValue N, P v
  | .null => hnull
  | .bool b => hbool b
  | .num n => hnum n
  | .str s => hstr s
  | .arr xs => harr xs (JValue.induct_elems hnull hbool hnum hstr harr hobj xs)
  | .obj kvs => hobj kvs (JValue.induct_members hnull hbool hnum hstr harr hobj kvs)
theorem JValue.induct_elems {N : Type} {P : JValue N → Prop}
    (hnull : P .null) (hbool : ∀ b, P (.bool b)) (hnum : ∀ n, P (.num n))
    (hstr : ∀ s, P (.str s))
    (harr : ∀ xs, (∀ x ∈ xs, P x) → P (.arr xs))
    (hobj : ∀ kvs, (∀ kv ∈ kvs, P kv.2) → P (.obj kvs)) :
    ∀ xs : List (JValue N), ∀ x ∈ xs, P x
  | [], _, h => by cases h
  | y :: ys, x, h => by
    rcases List.mem_cons.mp h with h | h
    · subst h; exact JValue.induct_value hnull hbool hnum hstr harr hobj x
    · exact JValue.induct_elems hnull hbool hnum hstr harr hobj ys x h
theorem JValue.induct_members {N : Type} {P : JValue N → Prop}
    (hnull : P .null) (hbool : ∀ b, P (.bool b)) (hnum : ∀ n, P (.num n))
    (hstr : ∀ s, P (.str s))
    (harr : ∀ xs, (∀ x ∈ xs, P x) → P (.arr xs))
    (hobj : ∀ kvs, (∀ kv ∈ kvs, P kv.2) → P (.obj kvs)) :
    ∀ kvs : List (String × JValue N), ∀ kv ∈ kvs, P kv.2
  | [], _, h => by cases h
  | (k, y) :: ys, x, h => by
    rcases List.mem_cons.mp h with h | h
    · subst h; exact JValue.induct_value hnull hbool hnum hstr harr hobj y
    · exact JValue.induct_members hnull hbool hnum hstr harr hobj ys x h
end

theorem canonElems_iff {N : Type} (xs : List (JValue N)) :
    canonElems xs ↔ ∀ x ∈ xs, x.Canon := by
  induction xs with
  | nil => simp [canonElems]
  | cons x xs ih => simp [canonElems, ih]

theorem canonMembers_iff {N : Type} (kvs : List (String × JValue N)) :
    canonMembers kvs ↔ ∀ kv ∈ kvs, kv.2.Canon := by
  induction kvs with
  | nil => simp [canonMembers]
  | cons x xs ih => obtain ⟨k, x⟩ := x; simp [canonMembers, ih]

/-! ## The decoder builds well-formed maps -/

theorem buildElems_canon {F : Type} (fl : Float64Lib F) (xs : List Raw)
    (ih : ∀ x ∈ xs, ∀ v, buildValue fl x = .ok v → v.Canon) :
    ∀ vs, buildElems fl xs = .ok vs → canonElems vs := by
  induction xs with
  | nil => intro vs h; simp only [buildElems, Except.ok.injEq] at h; subst h; trivial
  | cons x xs ihl =>
    intro vs h
    simp only [buildElems] at h
    split at h
    · cases h
    · rename_i v hv
      split at h
      · rename_i vs' hvs
        simp only [Except.ok.injEq] at h; subst h
        exact ⟨ih x (List.mem_cons_self _ _) v hv,
          ihl (fun y hy => ih y (List.mem_cons_of_mem _ hy)) vs' hvs⟩
      · cases h

theorem buildMembers_canon {F : Type} (fl : Float64Lib F) (kvs : List (String × Raw))
    (ih : ∀ kv ∈ kvs, ∀ v, buildValue fl kv.2 = .ok v → v.Canon) :
    ∀ acc m, buildMembers fl kvs acc = .ok m → canonMembers acc → SortedKeys acc →
      canonMembers m ∧ SortedKeys m := by
  induction kvs with
  | nil =>
    intro acc m h hc hs
    simp only [buildMembers, Except.ok.injEq] at h; subst h; exact ⟨hc, hs⟩
  | cons kv kvs ihl =>
    obtain ⟨k, x⟩ := kv
    intro acc m h hc hs
    simp only [buildMembers] at h
    split at h
    · cases h
    · rename_i v hv
      refine ihl (fun y hy => ih y (List.mem_cons_of_mem _ hy)) _ m h ?_
        (sortedKeys_mapInsert k v acc hs)
      rw [canonMembers_iff] at hc ⊢
      intro e he
      rcases mem_mapInsert k v acc e he with he | he
      · subst he; exact ih (k, x) (List.mem_cons_self _ _) v hv
      · exact hc e he

theorem buildValue_canon {F : Type} (fl : Float64Lib F) (raw : Raw) :
    ∀ v, buildValue fl raw = .ok v → v.Canon := by
  induction raw using JValue.induct_value with
  | hnull => intro v h; simp only [buildValue, Except.ok.injEq] at h; subst h; trivial
  | hbool b => intro v h; simp only [buildValue, Except.ok.injEq] at h; subst h; trivial
  | hnum n =>
    intro v h
    simp only [buildValue] at h
    split at h
    · simp only [Except.ok.injEq] at h; subst h; trivial
    · cases h
  | hstr s => intro v h; simp only [buildValue, Except.ok.injEq] at h; subst h; trivial
  | harr xs ih =>
    intro v h
    simp only [buildValue] at h
    split at h
    · rename_i vs hvs
      simp only [Except.ok.injEq] at h; subst h
      exact buildElems_canon fl xs ih vs hvs
    · cases h
  | hobj kvs ih =>
    intro v h
    simp only [buildValue] at h
    split at h
    · rename_i m hm
      simp only [Except.ok.injEq] at h; subst h
      exact buildMembers_canon fl kvs ih [] m hm trivial List.Pairwise.nil
    · cases h

/-! ## Building the value of a written tree -/

theorem buildElems_rawElems {F : Type} (fl : Float64Lib F) (xs : List (JValue F))
    (ih : ∀ x ∈ xs, x.Canon → buildValue fl (rawOf fl x) = .ok x) (hc : canonElems xs) :
    buildElems fl (rawElems fl xs) = .ok xs := by
  induction xs with
  | nil => rfl
  | cons x xs ihl =>
    simp only [rawElems, buildElems]
    rw [ih x (List.mem_cons_self _ _) hc.1, ihl (fun y hy => ih y (List.mem_cons_of_mem _ hy)) hc.2]

theorem buildMembers_rawMembers {F : Type} (fl : Float64Lib F) (kvs : List (String × JValue F))
    (ih : ∀ kv ∈ kvs, kv.2.Canon → buildValue fl (rawOf fl kv.2) = .ok kv.2)
    (hc : canonMembers kvs) :
    ∀ acc, SortedKeys (acc ++ kvs) → buildMembers fl (rawMembers fl kvs) acc = .ok (acc ++ kvs) := by
  induction kvs with
  | nil => intro acc _; simp [rawMembers, buildMembers]
  | cons kv kvs ihl =>
    obtain ⟨k, x⟩ := kv
    intro acc hs
    simp only [rawMembers, buildMembers]
    rw [ih (k, x) (List.mem_cons_self _ _) hc.1]
    have hlt : ∀ e ∈ acc, keyLt e.1 k = true := by
      intro e he
      exact (List.pairwise_append.mp hs).2.2 e he (k, x) (List.mem_cons_self _ _)
    simp only [mapInsert_append k x acc hlt]
    have := ihl (fun y hy => ih y (List.mem_cons_of_mem _ hy)) hc.2 (acc ++ [(k, x)])
      (by simpa using hs)
    simpa using this

theorem buildValue_rawOf {F : Type} (fl : Float64Lib F) (hfl : fl.Lawful) (v : JValue F) :
    v.Canon → buildValue fl (rawOf fl v) = .ok v := by
  induction v using JValue.induct_value with
  | hnull => intro _; rfl
  | hbool b => intro _; rfl
  | hnum n => intro _; simp only [rawOf, buildValue, (hfl n).2]
  | hstr s => intro _; rfl
  | harr xs ih =>
    intro hc
    simp only [rawOf, buildValue]
    rw [buildElems_rawElems fl xs ih hc]
  | hobj kvs ih =>
    intro hc
    simp only [rawOf, buildValue]
    rw [buildMembers_rawMembers fl kvs ih hc.1 [] (by simpa using hc.2)]
    simp

/-! ## Reading back a written string -/

theorem hexVal_hexDigit (d : Nat) (hd : d < 16) : hexVal (hexDigit d) = some d := by
  unfold hexVal hexDigit isDigit
  by_cases h : d < 10
  · have h1 : (decide (0x30 ≤ 0x30 + d) && decide (0x30 + d ≤ 0x39)) = true := by
      simp; omega
    simp only [h, if_true, h1]
    congr 1; omega
  · have h1 : (decide (0x30 ≤ 0x61 + (d - 10)) && decide (0x61 + (d - 10) ≤ 0x39)) = false := by
      simp; omega
    have h2 : (decide (0x61 ≤ 0x61 + (d - 10)) && decide (0x61 + (d - 10) ≤ 0x66)) = true := by
      simp; omega
    simp only [h, if_false, h1, h2, if_true]
    simp
    omega

theorem decodeRune_encodeRune (n : Nat) (more : Bytes) (h80 : 0x80 ≤ n)
    (hv : n < 0xd800 ∨ (0xdfff < n ∧ n < 0x110000)) :
    decodeRune (encodeRune n ++ more) = (n, (encodeRune n).length) ∧
      (encodeRune n ++ more).drop (encodeRune n).length = more ∧
      ∃ p0 t, encodeRune n = p0 :: t ∧ 0x80 ≤ p0 := by
  unfold encodeRune
  have h0 : ¬ n < 0x80 := by omega
  simp only [h0, if_false]
  by_cases h1 : n < 0x800
  · simp only [h1, if_true]
    refine ⟨?_, by simp, _, _, rfl, by omega⟩
    have a1 : ¬ (0xC0 + n / 64 < 0x80) := by omega
    have a2 : ¬ (0xC0 + n / 64 < 0xC2) := by omega
    have a3 : 0xC0 + n / 64 < 0xE0 := by omega
    have a4 : isCont (0x80 + n % 64) = true := by simp [isCont]; omega
    simp only [decodeRune, List.cons_append, a1, a2, a3, a4, if_true, if_false, List.length_cons,
      List.length_nil, Prod.mk.injEq, and_true]
    omega
  · simp only [h1, if_false]
    by_cases h2 : n < 0x10000
    · simp only [h2, if_true]
      refine ⟨?_, by simp, _, _, rfl, by omega⟩
      have a1 : ¬ (0xE0 + n / 4096 < 0x80) := by omega
      have a2 : ¬ (0xE0 + n / 4096 < 0xC2) := by omega
      have a3 : ¬ (0xE0 + n / 4096 < 0xE0) := by omega
      have a5 : 0xE0 + n / 4096 < 0xF0 := by omega
      have a4 : isCont (0x80 + n % 64) = true := by simp [isCont]; omega
      have a6 : (decide ((if 0xE0 + n / 4096 = 0xE0 then 0xA0 else 0x80) ≤ 0x80 + n / 64 % 64) &&
          decide (0x80 + n / 64 % 64 ≤ (if 0xE0 + n / 4096 = 0xED then 0x9F else 0xBF))) = true := by
        simp only [Bool.and_eq_true, decide_eq_true_eq]
        constructor
        · split <;> omega
        · split <;> omega
      simp only [decodeRune, List.cons_append, a1, a2, a3, a5, a4, a6, if_true, if_false,
        List.length_cons, List.length_nil, Prod.mk.injEq, and_true, Bool.and_self]
      omega
    · simp only [h2, if_false]
      refine ⟨?_, by simp, _, _, rfl, by omega⟩
      have a1 : ¬ (0xF0 + n / 262144 < 0x80) := by omega
      have a2 : ¬ (0xF0 + n / 262144 < 0xC2) := by omega
      have a3 : ¬ (0xF0 + n / 262144 < 0xE0) := by omega
      have a5 : ¬ (0xF0 + n / 262144 < 0xF0) := by omega
      have a7 : 0xF0 + n / 262144 < 0xF5 := by omega
      have a4 : isCont (0x80 + n % 64) = true := by simp [isCont]; omega
      have a8 : isCont (0x80 + n / 64 % 64) = true := by simp [isCont]; omega
      have a6 : (decide ((if 0xF0 + n / 262144 = 0xF0 then 0x90 else 0x80) ≤ 0x80 + n / 4096 % 64) &&
          decide (0x80 + n / 4096 % 64 ≤ (if 0xF0 + n / 262144 = 0xF4 then 0x8F else 0xBF))) = true := by
        simp only [Bool.and_eq_true, decide_eq_true_eq]
        constructor
        · split <;> omega
        · split <;> omega
      simp only [decodeRune, List.cons_append, a1, a2, a3, a5, a7, a4, a8, a6, if_true, if_false,
        List.length_cons, List.length_nil, Prod.mk.injEq, and_true, Bool.and_self]
      omega

theorem scanHex4_digits (a b c d da db dc dd : Nat) (more : Bytes)
    (ha : hexVal a = some da) (hb : hexVal b = some db) (hc : hexVal c = some dc)
    (hd : hexVal d = some dd) :
    scanHex4 4 0 (a :: b :: c :: d :: more) = .ok (((da * 16 + db) * 16 + dc) * 16 + dd, more) := by
  simp [scanHex4, ha, hb, hc, hd]

theorem char_eq_of_toNat (c : Char) (m : Nat) (h : c.toNat = m) : c = Char.ofNat m := by
  rw [← h, Char.ofNat_toNat]

theorem parseString_encodeChar (c : Char) (n : Nat) (more : Bytes) (acc : List Char) :
    parseString (n + 1) (encodeChar c ++ more) acc = parseString n more (acc ++ [c]) := by
  have hv : c.toNat < 0xd800 ∨ (0xdfff < c.toNat ∧ c.toNat < 0x110000) := c.valid
  have hof : Char.ofNat c.toNat = c := Char.ofNat_toNat c
  by_cases h80 : c.toNat < 0x80
  · by_cases h1 : c.toNat = 0x22
    · have := char_eq_of_toNat c _ h1
      subst this; rfl
    by_cases h2 : c.toNat = 0x5C
    · have := char_eq_of_toNat c _ h2
      subst this; rfl
    by_cases h3 : c.toNat = 0x0A
    · have := char_eq_of_toNat c _ h3
      subst this; rfl
    by_cases h4 : c.toNat = 0x0D
    · have := char_eq_of_toNat c _ h4
      subst this; rfl
    by_cases h5 : c.toNat = 0x09
    · have := char_eq_of_toNat c _ h5
      subst this; rfl
    by_cases h6 : c.toNat < 0x20 ∨ c.toNat = 0x3C ∨ c.toNat = 0x3E ∨ c.toNat = 0x26
    · have e : encodeChar c = [0x5C, 0x75, 0x30, 0x30, hexDigit (c.toNat / 16), hexDigit (c.toNat % 16)] := by
        unfold encodeChar
        simp only [h80, if_true, h1, h2, h3, h4, h5, Bool.or_self, Bool.false_eq_true, if_false,
          decide_False]
        have : (decide (c.toNat < 0x20) || decide (c.toNat = 0x3C) || decide (c.toNat = 0x3E) ||
            decide (c.toNat = 0x26)) = true := by
          simp only [Bool.or_eq_true, decide_eq_true_eq]
          tauto
        simp only [this, if_true]
      have e' : encodeChar c ++ more =
          0x5C :: 0x75 :: 0x30 :: 0x30 :: hexDigit (c.toNat / 16) :: hexDigit (c.toNat % 16) :: more := by
        rw [e]; rfl
      rw [e']
      have hx1 := hexVal_hexDigit (c.toNat / 16) (by omega)
      have hx2 := hexVal_hexDigit (c.toNat % 16) (by omega)
      have hx0 : hexVal 0x30 = some 0 := by decide
      have hval : ((0 * 16 + 0) * 16 + c.toNat / 16) * 16 + c.toNat % 16 = c.toNat := by omega
      have hsur : ¬ (0xD800 ≤ c.toNat ∧ c.toNat < 0xE000) := by omega
      have hs := scanHex4_digits _ _ _ _ _ _ _ _ more hx0 hx0 hx1 hx2
      rw [hval] at hs
      simp only [parseString]
      rw [hs]
      simp [hsur, hof]
    · have e : encodeChar c = [c.toNat] := by
        unfold encodeChar
        simp only [h80, if_true, h1, h2, h3, h4, h5, Bool.or_self, Bool.false_eq_true, if_false,
          decide_False]
        have : (decide (c.toNat < 0x20) || decide (c.toNat = 0x3C) || decide (c.toNat = 0x3E) ||
            decide (c.toNat = 0x26)) = false := by
          simp only [Bool.or_eq_false_iff, decide_eq_false_iff_not]
          tauto
        simp only [this, Bool.false_eq_true, if_false]
      have e' : encodeChar c ++ more = c.toNat :: more := by rw [e]; rfl
      rw [e']
      have h20 : ¬ c.toNat < 0x20 := by tauto
      simp only [parseString, h1, h2, h20, h80, if_true, if_false, hof]
  · by_cases h7 : c.toNat = 0x2028
    · have := char_eq_of_toNat c _ h7
      subst this; rfl
    by_cases h8 : c.toNat = 0x2029
    · have := char_eq_of_toNat c _ h8
      subst this; rfl
    have e : encodeChar c = encodeRune c.toNat := by
      unfold encodeChar
      simp only [h80, if_false, h7, h8, decide_False, Bool.or_self, Bool.false_eq_true]
    rw [e]
    obtain ⟨hdec, _, p0, t, hp, hp0⟩ := decodeRune_encodeRune c.toNat more (by omega) hv
    rw [hp] at hdec ⊢
    have e' : p0 :: t ++ more = p0 :: (t ++ more) := rfl
    rw [e'] at hdec ⊢
    have a1 : ¬ p0 = 0x22 := by omega
    have a2 : ¬ p0 = 0x5C := by omega
    have a3 : ¬ p0 < 0x20 := by omega
    have a4 : ¬ p0 < 0x80 := by omega
    simp only [parseString, a1, a2, a3, a4, if_false, hdec, List.length_cons,
      Nat.add_sub_cancel, List.drop_left, hof]

theorem parseString_encodeChars (cs : List Char) :
    ∀ (n : Nat) (rest : Bytes) (acc : List Char), cs.length < n →
      parseString n (encodeChars cs ++ rest) acc = .ok (String.mk (acc ++ cs), rest) := by
  induction cs with
  | nil =>
    intro n rest acc hn
    obtain ⟨n', rfl⟩ : ∃ n', n = n' + 1 := ⟨n - 1, by simp at hn; omega⟩
    simp [encodeChars, parseString]
  | cons c cs ih =>
    intro n rest acc hn
    obtain ⟨n', rfl⟩ : ∃ n', n = n' + 1 := ⟨n - 1, by simp at hn; omega⟩
    simp only [encodeChars, List.append_assoc]
    rw [parseString_encodeChar, ih n' rest (acc ++ [c]) (by simpa using hn)]
    simp

theorem length_encodeRune_pos (n : Nat) : 0 < (encodeRune n).length := by
  unfold encodeRune
  split
  · simp
  · split
    · simp
    · split <;> simp

theorem length_encodeChar_pos (c : Char) : 0 < (encodeChar c).length := by
  unfold encodeChar
  simp only []
  repeat' split
  all_goals first | exact length_encodeRune_pos _ | simp

theorem length_encodeChars (cs : List Char) : cs.length < (encodeChars cs).length := by
  induction cs with
  | nil => simp [encodeChars]
  | cons c cs ih =>
    have := length_encodeChar_pos c
    simp only [encodeChars, List.length_append, List.length_cons]
    omega

/-! ## Reading back a written number -/

theorem NumState.step_delim (st : NumState) (d : Nat) (hd : isDelim d = true) :
    st.step d = none := by
  simp only [isDelim, Bool.or_eq_true, decide_eq_true_eq] at hd
  rcases hd with ((rfl | rfl) | rfl) | rfl <;> cases st <;> rfl

theorem scanNumber_run (t : Bytes) :
    ∀ (st : NumState) (acc : Bytes) (d : Nat) (rest : Bytes), st.run t = true →
      isDelim d = true → scanNumber st acc (t ++ d :: rest) = .ok (acc ++ t, d :: rest) := by
  induction t with
  | nil =>
    intro st acc d rest hrun hd
    simp only [NumState.run] at hrun
    simp [scanNumber, NumState.step_delim st d hd, hrun]
  | cons c t ih =>
    intro st acc d rest hrun hd
    simp only [NumState.run] at hrun
    cases hst : st.step c with
    | none => rw [hst] at hrun; cases hrun
    | some st' =>
      rw [hst] at hrun
      have key := ih st' (acc ++ [c]) d rest hrun hd
      simp only [List.cons_append, scanNumber, hst]
      simpa using key

theorem skipSpace_cons (c : Nat) (t : Bytes) (hc : isSpace c = false) :
    skipSpace (c :: t) = c :: t := by
  simp [skipSpace, hc]

theorem parseValue_number (lit : Bytes) (hlit : isNumberLiteral lit = true) (n d : Nat)
    (rest : Bytes) (hd : isDelim d = true) :
    parseValue (n + 1) (lit ++ d :: rest) = .ok (.num lit, d :: rest) := by
  cases lit with
  | nil => simp [isNumberLiteral] at hlit
  | cons c t =>
    simp only [isNumberLiteral] at hlit
    cases hst : NumState.start c with
    | none => rw [hst] at hlit; cases hlit
    | some st =>
      rw [hst] at hlit
      have hscan := scanNumber_run t st [c] d rest hlit hd
      simp only [List.singleton_append] at hscan
      unfold NumState.start at hst
      by_cases h1 : c = 0x2D
      · subst h1
        simp only [if_true, Option.some.injEq] at hst
        subst hst
        simp [parseValue, skipSpace, isSpace, hscan]
      · by_cases h2 : c = 0x30
        · subst h2
          simp only [if_true, Option.some.injEq] at hst
          simp only [(by decide : ¬ (0x30 : Nat) = 0x2D), if_false, Option.some.injEq] at hst
          subst hst
          simp [parseValue, skipSpace, isSpace, hscan]
        · simp only [h1, h2, if_false] at hst
          split at hst
          · rename_i h3
            simp only [Option.some.injEq] at hst
            subst hst
            simp only [Bool.and_eq_true, decide_eq_true_eq] at h3
            have hsp : isSpace c = false := by
              simp only [isSpace, Bool.or_eq_false_iff, decide_eq_false_iff_not]; omega
            have b1 : ¬ c = 0x7B := by omega
            have b2 : ¬ c = 0x5B := by omega
            have b3 : ¬ c = 0x22 := by omega
            have b4 : (decide (0x31 ≤ c) && decide (c ≤ 0x39)) = true := by
              simp only [Bool.and_eq_true, decide_eq_true_eq]; exact h3
            simp only [List.cons_append, parseValue, skipSpace_cons c _ hsp, b1, b2, b3, h1, h2,
              b4, if_false, if_true, hscan]
          · cases hst

/-! ## Reading back a written value -/

theorem encodeValue_head {F : Type} (fl : Float64Lib F) (hfl : fl.Lawful) (v : JValue F) :
    ∃ c t, encodeValue fl v = c :: t ∧ isSpace c = false ∧ c ≠ 0x5D ∧ c ≠ 0x7D := by
  cases v with
  | null => exact ⟨_, _, rfl, by decide, by decide, by decide⟩
  | bool b => cases b <;> exact ⟨_, _, rfl, by decide, by decide, by decide⟩
  | num f =>
    have h := (hfl f).1
    simp only [encodeValue]
    cases hl : fl.formatFloat f with
    | nil => rw [hl] at h; simp [isNumberLiteral] at h
    | cons c t =>
      rw [hl] at h
      refine ⟨c, t, rfl, ?_⟩
      simp only [isNumberLiteral, NumState.start] at h
      by_cases h1 : c = 0x2D
      · subst h1; exact ⟨by decide, by decide, by decide⟩
      · by_cases h2 : c = 0x30
        · subst h2; exact ⟨by decide, by decide, by decide⟩
        · by_cases h3 : 0x31 ≤ c ∧ c ≤ 0x39
          · refine ⟨?_, by omega, by omega⟩
            simp only [isSpace, Bool.or_eq_false_iff, decide_eq_false_iff_not]; omega
          · have h4 : (decide (0x31 ≤ c) && decide (c ≤ 0x39)) = false := by
              simp only [Bool.and_eq_false_imp, decide_eq_true_eq, decide_eq_false_iff_not]
              omega
            simp [h1, h2, h4] at h
  | str s => exact ⟨_, _, rfl, by decide, by decide, by decide⟩
  | arr xs =>
    cases xs with
    | nil => exact ⟨_, _, rfl, by decide, by decide, by decide⟩
    | cons x xs =>
      exact ⟨0x5B, encodeValue fl x ++ encodeElems fl xs, by simp only [encodeValue], by decide,
        by decide, by decide⟩
  | obj kvs =>
    cases kvs with
    | nil => exact ⟨_, _, rfl, by decide, by decide, by decide⟩
    | cons kv kvs =>
      obtain ⟨k, x⟩ := kv
      exact ⟨0x7B, encodeString k ++ 0x3A :: (encodeValue fl x ++ encodeMembers fl kvs),
        by simp only [encodeValue], by decide, by decide, by decide⟩

theorem parseElems_encode {F : Type} (fl : Float64Lib F) (xs : List (JValue F)) :
    ∀ (x : JValue F) (n : Nat) (rest : Bytes) (acc : List Raw),
      ReadsBack fl x → (∀ y ∈ xs, ReadsBack fl y) → x.size + 1 + sizeElems xs ≤ n →
      parseElems n (encodeValue fl x ++ (encodeElems fl xs ++ rest)) acc =
        .ok (.arr (acc ++ rawOf fl x :: rawElems fl xs), rest) := by
  induction xs with
  | nil =>
    intro x n rest acc hx _ hn
    obtain ⟨n', rfl⟩ : ∃ n', n = n' + 1 := ⟨n - 1, by omega⟩
    have h1 := hx n' 0x5D rest (by omega) (by decide)
    simp only [encodeElems, List.singleton_append, parseElems, h1, rawElems]
    simp [skipSpace, isSpace]
  | cons y ys ih =>
    intro x n rest acc hx hys hn
    obtain ⟨n', rfl⟩ : ∃ n', n = n' + 1 := ⟨n - 1, by omega⟩
    simp only [sizeElems] at hn
    have h1 := hx n' 0x2C (encodeValue fl y ++ (encodeElems fl ys ++ rest)) (by omega)
      (by decide)
    have h2 := ih y n' rest (acc ++ [rawOf fl x]) (hys y (List.mem_cons_self _ _))
      (fun z hz => hys z (List.mem_cons_of_mem _ hz)) (by omega)
    simp only [encodeElems, List.cons_append, List.append_assoc, parseElems, h1, rawElems]
    simp only [skipSpace, isSpace]
    simpa using h2

theorem parseString_key (k : String) (rest : Bytes) :
    parseString ((encodeChars k.data ++ rest).length + 1) (encodeChars k.data ++ rest) [] =
      .ok (k, rest) := by
  have := parseString_encodeChars k.data ((encodeChars k.data ++ rest).length + 1) rest []
    (by have := length_encodeChars k.data; simp only [List.length_append]; omega)
  simpa using this

theorem parseMembers_encode {F : Type} (fl : Float64Lib F) (kvs : List (String × JValue F)) :
    ∀ (k : String) (x : JValue F) (n : Nat) (rest : Bytes) (acc : List (String × Raw)),
      ReadsBack fl x → (∀ kv ∈ kvs, ReadsBack fl kv.2) → x.size + 1 + sizeMembers kvs ≤ n →
      parseMembers n (encodeString k ++ 0x3A :: (encodeValue fl x ++ (encodeMembers fl kvs ++ rest)))
          acc =
        .ok (.obj (acc ++ (k, rawOf fl x) :: rawMembers fl kvs), rest) := by
  induction kvs with
  | nil =>
    intro k x n rest acc hx _ hn
    obtain ⟨n', rfl⟩ : ∃ n', n = n' + 1 := ⟨n - 1, by omega⟩
    have h1 := hx n' 0x7D rest (by omega) (by decide)
    have e : encodeString k ++ 0x3A :: (encodeValue fl x ++ (encodeMembers fl [] ++ rest)) =
        0x22 :: (encodeChars k.data ++ 0x3A :: (encodeValue fl x ++ 0x7D :: rest)) := by
      simp [encodeString, encodeMembers]
    rw [e, parseMembers]
    simp only [skipSpace_cons 0x22 _ (by decide), parseString_key, skipSpace_cons 0x3A _ (by decide),
      h1, skipSpace_cons 0x7D _ (by decide), rawMembers]
    simp
  | cons kv kvs ih =>
    obtain ⟨k', y⟩ := kv
    intro k x n rest acc hx hys hn
    obtain ⟨n', rfl⟩ : ∃ n', n = n' + 1 := ⟨n - 1, by omega⟩
    simp only [sizeMembers] at hn
    have h1 := hx n' 0x2C
      (encodeString k' ++ 0x3A :: (encodeValue fl y ++ (encodeMembers fl kvs ++ rest))) (by omega)
      (by decide)
    have h2 := ih k' y n' rest (acc ++ [(k, rawOf fl x)]) (hys (k', y) (List.mem_cons_self _ _))
      (fun z hz => hys z (List.mem_cons_of_mem _ hz)) (by omega)
    have e : encodeString k ++ 0x3A :: (encodeValue fl x ++ (encodeMembers fl ((k', y) :: kvs) ++ rest)) =
        0x22 :: (encodeChars k.data ++ 0x3A :: (encodeValue fl x ++ 0x2C ::
          (encodeString k' ++ 0x3A :: (encodeValue fl y ++ (encodeMembers fl kvs ++ rest))))) := by
      simp [encodeString, encodeMembers]
    rw [e, parseMembers]
    simp only [skipSpace_cons 0x22 _ (by decide), parseString_key, skipSpace_cons 0x3A _ (by decide),
      h1, skipSpace_cons 0x2C _ (by decide), rawMembers]
    simp only [ne_eq, not_true_eq_false, if_false, if_true, h2]
    simp

theorem readsBack {F : Type} (fl : Float64Lib F) (hfl : fl.Lawful) (v : JValue F) :
    ReadsBack fl v := by
  induction v using JValue.induct_value with
  | hnull =>
    intro n d rest hn hd
    obtain ⟨n', rfl⟩ : ∃ n', n = n' + 1 := ⟨n - 1, by simp only [JValue.size] at hn; omega⟩
    simp [encodeValue, parseValue, skipSpace, isSpace, scanLiteral, rawOf]
  | hbool b =>
    intro n d rest hn hd
    obtain ⟨n', rfl⟩ : ∃ n', n = n' + 1 := ⟨n - 1, by simp only [JValue.size] at hn; omega⟩
    cases b <;> simp [encodeValue, parseValue, skipSpace, isSpace, scanLiteral, rawOf]
  | hnum f =>
    intro n d rest hn hd
    obtain ⟨n', rfl⟩ : ∃ n', n = n' + 1 := ⟨n - 1, by simp only [JValue.size] at hn; omega⟩
    simp only [encodeValue, rawOf]
    exact parseValue_number _ (hfl f).1 n' d rest hd
  | hstr s =>
    intro n d rest hn hd
    obtain ⟨n', rfl⟩ : ∃ n', n = n' + 1 := ⟨n - 1, by simp only [JValue.size] at hn; omega⟩
    have e : encodeValue fl (.str s) ++ d :: rest = 0x22 :: (encodeChars s.data ++ d :: rest) := by
      simp [encodeValue, encodeString]
    rw [e, parseValue]
    simp only [skipSpace_cons 0x22 _ (by decide), parseString_key, rawOf]
    simp
  | harr xs ih =>
    intro n d rest hn hd
    obtain ⟨n', rfl⟩ : ∃ n', n = n' + 1 := ⟨n - 1, by simp only [JValue.size] at hn; omega⟩
    cases xs with
    | nil => simp [encodeValue, parseValue, skipSpace, isSpace, rawOf, rawElems]
    | cons x xs =>
      simp only [JValue.size, sizeElems] at hn
      have h2 := parseElems_encode fl xs x n' (d :: rest) [] (ih x (List.mem_cons_self _ _))
        (fun z hz => ih z (List.mem_cons_of_mem _ hz)) (by omega)
      obtain ⟨c, t, hc, hsp, hb, _⟩ := encodeValue_head fl hfl x
      have e : encodeValue fl (.arr (x :: xs)) ++ d :: rest =
          0x5B :: (encodeValue fl x ++ (encodeElems fl xs ++ d :: rest)) := by
        simp [encodeValue]
      rw [e, parseValue]
      rw [hc] at h2 ⊢
      simp only [List.cons_append] at h2 ⊢
      simp only [skipSpace_cons 0x5B _ (by decide), skipSpace_cons c _ hsp, hb, if_false, h2, rawOf,
        rawElems]
      simp
  | hobj kvs ih =>
    intro n d rest hn hd
    obtain ⟨n', rfl⟩ : ∃ n', n = n' + 1 := ⟨n - 1, by simp only [JValue.size] at hn; omega⟩
    cases kvs with
    | nil => simp [encodeValue, parseValue, skipSpace, isSpace, rawOf, rawMembers]
    | cons kv kvs =>
      obtain ⟨k, x⟩ := kv
      simp only [JValue.size, sizeMembers] at hn
      have h2 := parseMembers_encode fl kvs k x n' (d :: rest) [] (ih (k, x) (List.mem_cons_self _ _))
        (fun z hz => ih z (List.mem_cons_of_mem _ hz)) (by omega)
      have e : encodeValue fl (.obj ((k, x) :: kvs)) ++ d :: rest =
          0x7B :: 0x22 :: (encodeChars k.data ++ 0x3A ::
            (encodeValue fl x ++ (encodeMembers fl kvs ++ d :: rest))) := by
        simp [encodeValue, encodeString]
      have e2 : encodeString k ++ 0x3A :: (encodeValue fl x ++ (encodeMembers fl kvs ++ d :: rest)) =
          0x22 :: (encodeChars k.data ++ 0x3A ::
            (encodeValue fl x ++ (encodeMembers fl kvs ++ d :: rest))) := by
        simp [encodeString]
      rw [e2] at h2
      rw [e, parseValue]
      simp only [skipSpace_cons 0x7B _ (by decide), skipSpace_cons 0x22 _ (by decide), h2, rawOf,
        rawMembers]
      simp

/-! ## The budget of the reader suffices -/

theorem size_le_length {F : Type} (fl : Float64Lib F) (hfl : fl.Lawful) (v : JValue F) :
    v.size ≤ (encodeValue fl v).length := by
  induction v using JValue.induct_value with
  | hnull => simp [JValue.size, encodeValue]
  | hbool b => cases b <;> simp [JValue.size, encodeValue]
  | hnum f =>
    obtain ⟨c, t, hc, _⟩ := encodeValue_head fl hfl (.num f)
    rw [hc]; simp [JValue.size]
  | hstr s => simp [JValue.size, encodeValue, encodeString]
  | harr xs ih =>
    cases xs with
    | nil => simp [JValue.size, encodeValue, sizeElems]
    | cons x xs =>
      have hx := ih x (List.mem_cons_self _ _)
      have hxs : sizeElems xs + 1 ≤ (encodeElems fl xs).length := by
        have ih' : ∀ y ∈ xs, y.size ≤ (encodeValue fl y).length :=
          fun z hz => ih z (List.mem_cons_of_mem _ hz)
        clear hx ih
        induction xs with
        | nil => simp [sizeElems, encodeElems]
        | cons y ys ihl =>
          have hy := ih' y (List.mem_cons_self _ _)
          have := ihl (fun z hz => ih' z (List.mem_cons_of_mem _ hz))
          simp only [sizeElems, encodeElems, List.length_cons, List.length_append]
          omega
      simp only [JValue.size, sizeElems, encodeValue, List.length_cons, List.length_append]
      omega
  | hobj kvs ih =>
    cases kvs with
    | nil => simp [JValue.size, encodeValue, sizeMembers]
    | cons kv kvs =>
      obtain ⟨k, x⟩ := kv
      have hx : x.size ≤ (encodeValue fl x).length := ih (k, x) (List.mem_cons_self _ _)
      have hxs : sizeMembers kvs + 1 ≤ (encodeMembers fl kvs).length := by
        have ih' : ∀ y ∈ kvs, y.2.size ≤ (encodeValue fl y.2).length :=
          fun z hz => ih z (List.mem_cons_of_mem _ hz)
        clear hx ih
        induction kvs with
        | nil => simp [sizeMembers, encodeMembers]
        | cons y ys ihl =>
          obtain ⟨k', y⟩ := y
          have hy : y.size ≤ (encodeValue fl y).length := ih' (k', y) (List.mem_cons_self _ _)
          have := ihl (fun z hz => ih' z (List.mem_cons_of_mem _ hz))
          simp only [sizeMembers, encodeMembers, List.length_cons, List.length_append]
          omega
      simp only [JValue.size, sizeMembers, encodeValue, List.length_cons, List.length_append]
      omega

/-! ## Reading back a written manifest -/

theorem decodeManifest_encodeManifest {F : Type} (fl : Float64Lib F) (hfl : fl.Lawful)
    (m : List (String × JValue F)) (hc : canonMembers m) (hs : SortedKeys m) :
    decodeManifest fl (encodeManifest fl (some m)) = .ok (some m) := by
  have hsize := size_le_length fl hfl (.obj m)
  have hread := readsBack fl hfl (.obj m)
    (2 * (encodeValue fl (.obj m) ++ [0x0A]).length + 1) 0x0A [] (by
      simp only [List.length_append]; omega) (by decide)
  obtain ⟨c, t, hct, hsp, _, _⟩ := encodeValue_head fl hfl (.obj m)
  have hbuild := buildMembers_rawMembers fl m
    (fun kv _ hkv => buildValue_rawOf fl hfl kv.2 hkv) hc [] (by simpa using hs)
  have hrv : readValue (encodeManifest fl (some m)) = .ok (rawOf fl (.obj m)) := by
    unfold readValue encodeManifest
    simp only [hread]
    rw [hct]
    simp only [List.cons_append, skipSpace_cons c _ hsp]
  unfold decodeManifest
  rw [hrv]
  simp only [rawOf, unmarshalManifest, hbuild]
  simp

theorem decodeManifest_encodeManifest_nil {F : Type} (fl : Float64Lib F) :
    decodeManifest fl (encodeManifest fl none) = .ok none := rfl

theorem decodeManifest_canon {F : Type} (fl : Float64Lib F) (src : Bytes)
    (m : List (String × JValue F)) (h : decodeManifest fl src = .ok (some m)) :
    canonMembers m ∧ SortedKeys m := by
  unfold decodeManifest at h
  split at h
  · cases h
  · rename_i raw _
    cases raw with
    | obj kvs =>
      simp only [unmarshalManifest] at h
      split at h
      · rename_i m' hm
        simp only [Except.ok.injEq, Option.some.injEq] at h
        subst h
        exact buildMembers_canon fl kvs (fun kv _ v hv => buildValue_canon fl kv.2 v hv) [] _ hm
          trivial List.Pairwise.nil
      · cases h
    | null => simp [unmarshalManifest] at h
    | bool b => simp [unmarshalManifest] at h
    | num n => simp [unmarshalManifest] at h
    | str s => simp [unmarshalManifest] at h
    | arr xs => simp [unmarshalManifest] at h

/-! ## The reader never runs out of budget -/

theorem length_skipSpace (inp : Bytes) : (skipSpace inp).length ≤ inp.length := by
  induction inp with
  | nil => simp [skipSpace]
  | cons c t ih =>
    simp only [skipSpace]
    split
    · simp only [List.length_cons]; omega
    · simp

theorem length_of_skipSpace_eq (inp : Bytes) (c : Nat) (t : Bytes)
    (h : skipSpace inp = c :: t) : t.length < inp.length := by
  have := length_skipSpace inp
  rw [h] at this
  simp only [List.length_cons] at this
  omega

theorem length_scanLiteral (lit : String) (es : List Char) :
    ∀ (inp rest : Bytes), scanLiteral lit es inp = .ok rest → rest.length ≤ inp.length := by
  induction es with
  | nil => intro inp rest h; simp only [scanLiteral, Except.ok.injEq] at h; subst h; exact le_refl _
  | cons e es ih =>
    intro inp rest h
    cases inp with
    | nil => simp [scanLiteral] at h
    | cons c t =>
      simp only [scanLiteral] at h
      split at h
      · have := ih t rest h
        simp only [List.length_cons]; omega
      · cases h

theorem length_scanNumber (inp : Bytes) :
    ∀ (st : NumState) (acc lit rest : Bytes), scanNumber st acc inp = .ok (lit, rest) →
      rest.length ≤ inp.length := by
  induction inp with
  | nil =>
    intro st acc lit rest h
    simp only [scanNumber] at h
    split at h
    · simp only [Except.ok.injEq, Prod.mk.injEq] at h; rw [← h.2]
    · cases h
  | cons c t ih =>
    intro st acc lit rest h
    simp only [scanNumber] at h
    split at h
    · have := ih _ _ _ _ h
      simp only [List.length_cons]; omega
    · split at h
      · simp only [Except.ok.injEq, Prod.mk.injEq] at h; rw [← h.2]
      · cases h

theorem length_scanHex4 (k : Nat) :
    ∀ (acc : Nat) (inp : Bytes) (v : Nat) (rest : Bytes), scanHex4 k acc inp = .ok (v, rest) →
      rest.length ≤ inp.length := by
  induction k with
  | zero =>
    intro acc inp v rest h
    simp only [scanHex4, Except.ok.injEq, Prod.mk.injEq] at h; rw [← h.2]
  | succ k ih =>
    intro acc inp v rest h
    cases inp with
    | nil => simp [scanHex4] at h
    | cons c t =>
      simp only [scanHex4] at h
      split at h
      · have := ih _ _ _ _ h
        simp only [List.length_cons]; omega
      · cases h

theorem length_getu4 (inp : Bytes) (v : Nat) (rest : Bytes) (h : getu4 inp = some (v, rest)) :
    rest.length ≤ inp.length := by
  unfold getu4 at h
  split at h
  · rename_i t
    split at h
    · rename_i r hr
      simp only [Option.some.injEq] at h
      subst h
      have := length_scanHex4 4 0 t v rest hr
      simp only [List.length_cons]; omega
    · cases h
  · cases h

theorem parseString_budget (n : Nat) :
    ∀ (inp : Bytes) (acc : List Char), inp.length < n →
      parseString n inp acc ≠ .error .outOfFuel := by
  induction n with
  | zero => intro inp acc h; omega
  | succ n ih =>
    intro inp acc hn
    cases inp with
    | nil => simp [parseString]
    | cons c t =>
      simp only [List.length_cons] at hn
      simp only [parseString]
      split
      · simp
      · split
        · cases t with
          | nil => simp
          | cons e t' =>
            simp only [List.length_cons] at hn
            simp only []
            split
            · split
              · rename_i err herr
                intro h
                simp only [Except.error.injEq] at h
                subst h
                have : ∀ (k acc : Nat) (inp : Bytes), scanHex4 k acc inp ≠ .error .outOfFuel := by
                  intro k
                  induction k with
                  | zero => intro acc inp; simp [scanHex4]
                  | succ k ihk =>
                    intro acc inp
                    cases inp with
                    | nil => simp [scanHex4]
                    | cons c t =>
                      simp only [scanHex4]
                      split
                      · exact ihk _ _
                      · simp
                exact this _ _ _ herr
              · rename_i rr t'' hs
                have hl := length_scanHex4 4 0 t' rr t'' hs
                split
                · split
                  · rename_i rr1 t3 hg
                    have hl3 := length_getu4 t'' rr1 t3 hg
                    split
                    · exact ih _ _ (by omega)
                    · exact ih _ _ (by omega)
                  · exact ih _ _ (by omega)
                · exact ih _ _ (by omega)
            · split
              · exact ih _ _ (by omega)
              · simp
        · split
          · simp
          · split
            · exact ih _ _ (by omega)
            · apply ih
              simp only [List.length_drop]
              omega

theorem length_parseString (n : Nat) :
    ∀ (inp : Bytes) (acc : List Char) (s : String) (rest : Bytes),
      parseString n inp acc = .ok (s, rest) → rest.length < inp.length := by
  induction n with
  | zero => intro inp acc s rest h; simp [parseString] at h
  | succ n ih =>
    intro inp acc s rest h
    cases inp with
    | nil => simp [parseString] at h
    | cons c t =>
      simp only [parseString] at h
      simp only [List.length_cons]
      split at h
      · simp only [Except.ok.injEq, Prod.mk.injEq] at h
        rw [← h.2]; omega
      · split at h
        · cases t with
          | nil => simp at h
          | cons e t' =>
            simp only [List.length_cons]
            simp only [] at h
            split at h
            · split at h
              · cases h
              · rename_i rr t'' hs
                have hl := length_scanHex4 4 0 t' rr t'' hs
                split at h
                · split at h
                  · rename_i rr1 t3 hg
                    have hl3 := length_getu4 t'' rr1 t3 hg
                    split at h
                    · have := ih _ _ _ _ h; omega
                    · have := ih _ _ _ _ h; omega
                  · have := ih _ _ _ _ h; omega
                · have := ih _ _ _ _ h; omega
            · split at h
              · have := ih _ _ _ _ h; omega
              · cases h
        · split at h
          · cases h
          · split at h
            · have := ih _ _ _ _ h; omega
            · have := ih _ _ _ _ h
              simp only [List.length_drop] at this
              omega


theorem length_parse (n : Nat) :
    (∀ (inp : Bytes) (v : Raw) (rest : Bytes),
      parseValue n inp = .ok (v, rest) → rest.length < inp.length) ∧
    (∀ (inp : Bytes) (acc : List Raw) (v : Raw) (rest : Bytes),
      parseElems n inp acc = .ok (v, rest) → rest.length < inp.length) ∧
    (∀ (inp : Bytes) (acc : List (String × Raw)) (v : Raw) (rest : Bytes),
      parseMembers n inp acc = .ok (v, rest) → rest.length < inp.length) := by
  induction n with
  | zero =>
    refine ⟨?_, ?_, ?_⟩
    · intro inp v rest h; simp [parseValue] at h
    · intro inp acc v rest h; simp [parseElems] at h
    · intro inp acc v rest h; simp [parseMembers] at h
  | succ n ih =>
    obtain ⟨ihv, ihe, ihm⟩ := ih
    refine ⟨?_, ?_, ?_⟩
    · intro inp v rest h
      simp only [parseValue] at h
      split at h
      · cases h
      · rename_i c t hsk
        have hlen := length_of_skipSpace_eq inp c t hsk
        split at h
        · split at h
          · cases h
          · rename_i c' t' hsk'
            have hlen' := length_of_skipSpace_eq t c' t' hsk'
            split at h
            · simp only [Except.ok.injEq, Prod.mk.injEq] at h
              rw [← h.2]; omega
            · have := ihm _ _ _ _ h
              simp only [List.length_cons] at this; omega
        · split at h
          · split at h
            · cases h
            · rename_i c' t' hsk'
              have hlen' := length_of_skipSpace_eq t c' t' hsk'
              split at h
              · simp only [Except.ok.injEq, Prod.mk.injEq] at h
                rw [← h.2]; omega
              · have := ihe _ _ _ _ h
                simp only [List.length_cons] at this; omega
          · split at h
            · split at h
              · rename_i s rest' hs
                simp only [Except.ok.injEq, Prod.mk.injEq] at h
                have := length_parseString _ _ _ _ _ hs
                rw [← h.2]; omega
              · cases h
            · split at h
              · split at h
                · rename_i lit rest' hs
                  simp only [Except.ok.injEq, Prod.mk.injEq] at h
                  have := length_scanNumber _ _ _ _ _ hs
                  rw [← h.2]; omega
                · cases h
              · split at h
                · split at h
                  · rename_i lit rest' hs
                    simp only [Except.ok.injEq, Prod.mk.injEq] at h
                    have := length_scanNumber _ _ _ _ _ hs
                    rw [← h.2]; omega
                  · cases h
                · split at h
                  · split at h
                    · rename_i lit rest' hs
                      simp only [Except.ok.injEq, Prod.mk.injEq] at h
                      have := length_scanNumber _ _ _ _ _ hs
                      rw [← h.2]; omega
                    · cases h
                  · split at h
                    · split at h
                      · rename_i rest' hs
                        simp only [Except.ok.injEq, Prod.mk.injEq] at h
                        have := length_scanLiteral _ _ _ _ hs
                        rw [← h.2]; omega
                      · cases h
                    · split at h
                      · split at h
                        · rename_i rest' hs
                          simp only [Except.ok.injEq, Prod.mk.injEq] at h
                          have := length_scanLiteral _ _ _ _ hs
                          rw [← h.2]; omega
                        · cases h
                      · split at h
                        · split at h
                          · rename_i rest' hs
                            simp only [Except.ok.injEq, Prod.mk.injEq] at h
                            have := length_scanLiteral _ _ _ _ hs
                            rw [← h.2]; omega
                          · cases h
                        · cases h
    · intro inp acc v rest h
      simp only [parseElems] at h
      split at h
      · cases h
      · rename_i x rest1 hx
        have h1 := ihv _ _ _ hx
        split at h
        · cases h
        · rename_i c t hsk
          have hlen := length_of_skipSpace_eq rest1 c t hsk
          split at h
          · have := ihe _ _ _ _ h; omega
          · split at h
            · simp only [Except.ok.injEq, Prod.mk.injEq] at h
              rw [← h.2]; omega
            · cases h
    · intro inp acc v rest h
      simp only [parseMembers] at h
      split at h
      · cases h
      · rename_i q t0 hsk0
        have hlen0 := length_of_skipSpace_eq inp q t0 hsk0
        split at h
        · cases h
        · split at h
          · cases h
          · rename_i k rest0 hk
            have hk' := length_parseString _ _ _ _ _ hk
            split at h
            · cases h
            · rename_i colon t1 hsk1
              have hlen1 := length_of_skipSpace_eq rest0 colon t1 hsk1
              split at h
              · cases h
              · split at h
                · cases h
                · rename_i x rest1 hx
                  have h1 := ihv _ _ _ hx
                  split at h
                  · cases h
                  · rename_i c t hsk
                    have hlen := length_of_skipSpace_eq rest1 c t hsk
                    split at h
                    · have := ihm _ _ _ _ h; omega
                    · split at h
                      · simp only [Except.ok.injEq, Prod.mk.injEq] at h
                        rw [← h.2]; omega
                      · cases h

theorem scanLiteral_budget (lit : String) (es : List Char) :
    ∀ inp : Bytes, scanLiteral lit es inp ≠ .error .outOfFuel := by
  induction es with
  | nil => intro inp; simp [scanLiteral]
  | cons e es ih =>
    intro inp
    cases inp with
    | nil => simp [scanLiteral]
    | cons c t =>
      simp only [scanLiteral]
      split
      · exact ih t
      · simp

theorem scanNumber_budget (inp : Bytes) :
    ∀ (st : NumState) (acc : Bytes), scanNumber st acc inp ≠ .error .outOfFuel := by
  induction inp with
  | nil => intro st acc; simp only [scanNumber]; split <;> simp
  | cons c t ih =>
    intro st acc
    simp only [scanNumber]
    split
    · exact ih _ _
    · split <;> simp

theorem parse_budget (n : Nat) :
    (∀ inp : Bytes, 2 * inp.length + 1 ≤ n → parseValue n inp ≠ .error .outOfFuel) ∧
    (∀ (inp : Bytes) (acc : List Raw), 2 * inp.length + 2 ≤ n →
      parseElems n inp acc ≠ .error .outOfFuel) ∧
    (∀ (inp : Bytes) (acc : List (String × Raw)), 2 * inp.length + 2 ≤ n →
      parseMembers n inp acc ≠ .error .outOfFuel) := by
  induction n with
  | zero =>
    refine ⟨?_, ?_, ?_⟩
    · intro inp h; omega
    · intro inp acc h; omega
    · intro inp acc h; omega
  | succ n ih =>
    obtain ⟨ihv, ihe, ihm⟩ := ih
    refine ⟨?_, ?_, ?_⟩
    · intro inp hn h
      simp only [parseValue] at h
      split at h
      · cases h
      · rename_i c t hsk
        have hlen := length_of_skipSpace_eq inp c t hsk
        split at h
        · split at h
          · cases h
          · rename_i c' t' hsk'
            have hlen' := length_of_skipSpace_eq t c' t' hsk'
            split at h
            · cases h
            · exact ihm _ _ (by simp only [List.length_cons]; omega) h
        · split at h
          · split at h
            · cases h
            · rename_i c' t' hsk'
              have hlen' := length_of_skipSpace_eq t c' t' hsk'
              split at h
              · cases h
              · exact ihe _ _ (by simp only [List.length_cons]; omega) h
          · split at h
            · split at h
              · cases h
              · rename_i e he
                simp only [Except.error.injEq] at h
                subst h
                exact parseString_budget _ _ _ (by omega) he
            · split at h
              · split at h
                · cases h
                · rename_i e he
                  simp only [Except.error.injEq] at h
                  subst h
                  exact scanNumber_budget _ _ _ he
              · split at h
                · split at h
                  · cases h
                  · rename_i e he
                    simp only [Except.error.injEq] at h
                    subst h
                    exact scanNumber_budget _ _ _ he
                · split at h
                  · split at h
                    · cases h
                    · rename_i e he
                      simp only [Except.error.injEq] at h
                      subst h
                      exact scanNumber_budget _ _ _ he
                  · split at h
                    · split at h
                      · cases h
                      · rename_i e he
                        simp only [Except.error.injEq] at h
                        subst h
                        exact scanLiteral_budget _ _ _ he
                    · split at h
                      · split at h
                        · cases h
                        · rename_i e he
                          simp only [Except.error.injEq] at h
                          subst h
                          exact scanLiteral_budget _ _ _ he
                      · split at h
                        · split at h
                          · cases h
                          · rename_i e he
                            simp only [Except.error.injEq] at h
                            subst h
                            exact scanLiteral_budget _ _ _ he
                        · cases h
    · intro inp acc hn h
      simp only [parseElems] at h
      split at h
      · rename_i e he
        simp only [Except.error.injEq] at h
        subst h
        exact ihv _ (by omega) he
      · rename_i x rest1 hx
        have h1 := (length_parse n).1 _ _ _ hx
        split at h
        · cases h
        · rename_i c t hsk
          have hlen := length_of_skipSpace_eq rest1 c t hsk
          split at h
          · exact ihe _ _ (by omega) h
          · split at h
            · cases h
            · cases h
    · intro inp acc hn h
      simp only [parseMembers] at h
      split at h
      · cases h
      · rename_i q t0 hsk0
        have hlen0 := length_of_skipSpace_eq inp q t0 hsk0
        split at h
        · cases h
        · split at h
          · rename_i e he
            simp only [Except.error.injEq] at h
            subst h
            exact parseString_budget _ _ _ (by omega) he
          · rename_i k rest0 hk
            have hk' := length_parseString _ _ _ _ _ hk
            split at h
            · cases h
            · rename_i colon t1 hsk1
              have hlen1 := length_of_skipSpace_eq rest0 colon t1 hsk1
              split at h
              · cases h
              · split at h
                · rename_i e he
                  simp only [Except.error.injEq] at h
                  subst h
                  exact ihv _ (by omega) he
                · rename_i x rest1 hx
                  have h1 := (length_parse n).1 _ _ _ hx
                  split at h
                  · cases h
                  · rename_i c t hsk
                    have hlen := length_of_skipSpace_eq rest1 c t hsk
                    split at h
                    · exact ihm _ _ (by omega) h
                    · split at h
                      · cases h
                      · cases h

/-- The reader's budget always suffices: `readValue` never fails for lack of it. -/
theorem readValue_budget (src : Bytes) : readValue src ≠ .error .outOfFuel := by
  unfold readValue
  split
  · simp
  · split
    · rename_i e he
      intro h
      simp only [Except.error.injEq] at h
      subst h
      exact (parse_budget _).1 src (le_refl _) he
    · simp

/-! ## Group and version strings -/

theorem exactNumbers_lawful : exactNumbers.Lawful := by
  intro f
  refine ⟨f.2, ?_⟩
  simp only [exactNumbers, f.2, dite_true]
  rfl

theorem string_eq_empty_iff (s : String) : s = "" ↔ s.data = [] := by
  constructor
  · intro h; subst h; rfl
  · intro h; exact String.ext h

theorem groupVersion_String_eq (T V : String) :
    ({ Group := T, Version := V } : GroupVersion).String = groupVersionIdentifier T V := by
  unfold GroupVersion.String groupVersionIdentifier
  by_cases hT : T.data = []
  · have hT' : T = "" := (string_eq_empty_iff T).2 hT
    subst hT'
    by_cases hV : V.data = []
    · have hV' : V = "" := (string_eq_empty_iff V).2 hV
      subst hV'; rfl
    · by_cases hv1 : V = "v1"
      · subst hv1; rfl
      · simp [hV, hv1]
  · have hT' : ¬ T = "" := fun h => hT ((string_eq_empty_iff T).1 h)
    simp [hT, hT']

theorem dropWhile_slash (g v : List Char) (hg : '/' ∉ g) :
    (g ++ '/' :: v).dropWhile (fun c => c != '/') = '/' :: v ∧
      (g ++ '/' :: v).takeWhile (fun c => c != '/') = g := by
  induction g with
  | nil => simp
  | cons c g ih =>
    have hc : c ≠ '/' := fun h => hg (by simp [h])
    have hg' : '/' ∉ g := fun h => hg (List.mem_cons_of_mem _ h)
    obtain ⟨h1, h2⟩ := ih hg'
    simp [List.dropWhile_cons, List.takeWhile_cons, hc, h1, h2]

theorem splitFirstSlash_append (G V : String) (hG : '/' ∉ G.data) :
    splitFirstSlash (G ++ "/" ++ V) = (G, V) := by
  have hd : (G ++ "/" ++ V).data = G.data ++ '/' :: V.data := by
    simp [String.data_append]
  obtain ⟨h1, h2⟩ := dropWhile_slash G.data V.data hG
  unfold splitFirstSlash
  rw [hd, h1, h2]

theorem count_slash_append (G V : String) (hG : '/' ∉ G.data) (hV : '/' ∉ V.data) :
    (G ++ "/" ++ V).data.count '/' = 1 := by
  have hd : (G ++ "/" ++ V).data = G.data ++ '/' :: V.data := by
    simp [String.data_append]
  rw [hd, List.count_append, List.count_cons_self, List.count_eq_zero.2 hG,
    List.count_eq_zero.2 hV]

theorem ParseGroupVersion_of_count_le_one (s : String) (h : s.data.count '/' ≤ 1) :
    ParseGroupVersion s = .ok ⟨(splitFirstSlash s).1, (splitFirstSlash s).2⟩ := by
  unfold ParseGroupVersion
  by_cases h0 : s.data = [] ∨ s = "/"
  · rw [if_pos h0]
    rcases h0 with h0 | h0
    · have : s = "" := (string_eq_empty_iff s).2 h0
      subst this; rfl
    · subst h0; rfl
  · rw [if_neg h0]
    by_cases hc : s.data.count '/' = 0
    · have hno : '/' ∉ s.data := List.count_eq_zero.1 hc
      have hdw : s.data.dropWhile (fun c => c != '/') = [] := by
        rw [List.dropWhile_eq_nil_iff]
        intro x hx
        have : x ≠ '/' := fun e => hno (e ▸ hx)
        simpa using this
      simp only [hc, splitFirstSlash, hdw]
    · have h1 : s.data.count '/' = 1 := by omega
      have hmem : '/' ∈ s.data := by
        by_contra hno
        exact hc (List.count_eq_zero.2 hno)
      cases hdw : s.data.dropWhile (fun c => c != '/') with
      | nil =>
        rw [List.dropWhile_eq_nil_iff] at hdw
        have := hdw '/' hmem
        simp at this
      | cons c version =>
        simp only [h1, splitFirstSlash, hdw, List.drop_succ_cons, List.drop_zero]

theorem ParseGroupVersion_of_two_slashes (s : String) (h : 2 ≤ s.data.count '/') :
    ParseGroupVersion s = .error (.groupVersion s) := by
  unfold ParseGroupVersion
  have h0 : ¬ (s.data = [] ∨ s = "/") := by
    rintro (h0 | h0)
    · rw [h0] at h; simp at h
    · subst h0; revert h; decide
  rw [if_neg h0]
  obtain ⟨n, hn⟩ : ∃ n, s.data.count '/' = n + 2 := ⟨s.data.count '/' - 2, by omega⟩
  simp only [hn]

/-! ## `changeGroup` -/

theorem canon_mapInsert_str {F : Type} (m : List (String × JValue F)) (k s : String)
    (hc : canonMembers m) (hs : SortedKeys m) :
    canonMembers (mapInsert k (.str s) m) ∧ SortedKeys (mapInsert k (.str s) m) := by
  refine ⟨?_, sortedKeys_mapInsert k _ m hs⟩
  rw [canonMembers_iff] at hc ⊢
  intro e he
  rcases mem_mapInsert k _ m e he with he | he
  · subst he; trivial
  · exact hc e he

theorem changeGroup_of_string {F : Type} (fl : Float64Lib F) (hfl : fl.Lawful) (T : String)
    (src : Bytes) (manifest : List (String × JValue F)) (s : String) (gv : GroupVersion)
    (hdec : decodeManifest fl src = .ok (some manifest))
    (hapi : mapLookup "apiVersion" manifest = some (.str s))
    (hgv : ParseGroupVersion s = .ok gv) :
    changeGroup fl T src = .ok (encodeManifest fl (some (mapInsert "apiVersion"
        (.str (groupVersionIdentifier T gv.Version)) manifest))) ∧
      decodeManifest fl (encodeManifest fl (some (mapInsert "apiVersion"
        (.str (groupVersionIdentifier T gv.Version)) manifest))) =
        .ok (some (mapInsert "apiVersion"
          (.str (groupVersionIdentifier T gv.Version)) manifest)) := by
  obtain ⟨hc, hs⟩ := decodeManifest_canon fl src manifest hdec
  obtain ⟨hc', hs'⟩ := canon_mapInsert_str manifest "apiVersion"
    (groupVersionIdentifier T gv.Version) hc hs
  refine ⟨?_, decodeManifest_encodeManifest fl hfl _ hc' hs'⟩
  unfold changeGroup
  simp only [hdec, hapi, hgv, groupVersion_String_eq]

theorem changeGroup_of_not_string {F : Type} (fl : Float64Lib F) (T : String)
    (src : Bytes) (manifest : List (String × JValue F))
    (hdec : decodeManifest fl src = .ok (some manifest))
    (hapi : ∀ s, mapLookup "apiVersion" manifest ≠ some (.str s)) :
    changeGroup fl T src = .ok (encodeManifest fl (some manifest)) := by
  unfold changeGroup
  simp only [hdec]

/-- C1: when the body decodes to an object whose `apiVersion` is the string
`G/V`, with no slash in `G` or `V`, `changeGroup` succeeds for every target
group `T`, and its output decodes to an object whose `apiVersion` is `T/V`, or
the bare `V` when `T` is empty, and whose other fields are those of the input. -/
theorem changeGroup_rewrites_group {F : Type} (fl : Float64Lib F) (hfl : fl.Lawful)
    (T G V : String) (src : Bytes) (manifest : List (String × JValue F))
    (hdec : decodeManifest fl src = .ok (some manifest))
    (hapi : mapLookup "apiVersion" manifest = some (.str (G ++ "/" ++ V)))
    (hG : '/' ∉ G.data) (hV : '/' ∉ V.data) :
    ∃ out result, changeGroup fl T src = .ok out ∧
      decodeManifest fl out = .ok (some result) ∧
      mapLookup "apiVersion" result = some (.str (if T = "" then V else T ++ "/" ++ V)) ∧
      ∀ k, k ≠ "apiVersion" → mapLookup k result = mapLookup k manifest := by
  have hgv := ParseGroupVersion_of_count_le_one (G ++ "/" ++ V)
    (le_of_eq (count_slash_append G V hG hV))
  rw [splitFirstSlash_append G V hG] at hgv
  obtain ⟨h1, h2⟩ := changeGroup_of_string fl hfl T src manifest _ _ hdec hapi hgv
  refine ⟨_, _, h1, h2, ?_, ?_⟩
  · rw [mapLookup_mapInsert]
    simp [groupVersionIdentifier]
  · intro k hk
    rw [mapLookup_mapInsert, if_neg hk]

/-- C4: when the body decodes to an object whose `apiVersion` is absent or is
not a string, `changeGroup` succeeds for every target group and its output
decodes to the same object. -/
theorem changeGroup_without_apiVersion {F : Type} (fl : Float64Lib F) (hfl : fl.Lawful)
    (T : String) (src : Bytes) (manifest : List (String × JValue F))
    (hdec : decodeManifest fl src = .ok (some manifest))
    (hapi : ∀ s, mapLookup "apiVersion" manifest ≠ some (.str s)) :
    ∃ out, changeGroup fl T src = .ok out ∧ decodeManifest fl out = .ok (some manifest) := by
  obtain ⟨hc, hs⟩ := decodeManifest_canon fl src manifest hdec
  exact ⟨_, changeGroup_of_not_string fl T src manifest hdec hapi,
    decodeManifest_encodeManifest fl hfl manifest hc hs⟩

/-- C9, amended: when the body decodes to an object whose `apiVersion` is a
string `s` with at most one slash, `changeGroup` succeeds for every target
group `T`: with `s` split at its slash into group and version (the group empty
when there is no slash), the output decodes to an object whose `apiVersion` is
`T/version`, or the bare version when `T` is empty. -/
theorem changeGroup_at_most_one_slash {F : Type} (fl : Float64Lib F) (hfl : fl.Lawful)
    (T s : String) (src : Bytes) (manifest : List (String × JValue F))
    (hdec : decodeManifest fl src = .ok (some manifest))
    (hapi : mapLookup "apiVersion" manifest = some (.str s))
    (hs : s.data.count '/' ≤ 1) :
    ∃ out result, changeGroup fl T src = .ok out ∧
      decodeManifest fl out = .ok (some result) ∧
      mapLookup "apiVersion" result =
        some (.str (groupVersionIdentifier T (splitFirstSlash s).2)) := by
  have hgv := ParseGroupVersion_of_count_le_one s hs
  obtain ⟨h1, h2⟩ := changeGroup_of_string fl hfl T src manifest _ _ hdec hapi hgv
  refine ⟨_, _, h1, h2, ?_⟩
  rw [mapLookup_mapInsert]
  simp

/-- C2, amended: when the body decodes to an object whose `apiVersion` is
`openshift.org/V` with no slash in `V`, rewriting with target `""` and then
rewriting the result with target `openshift.org` both succeed, and the final
output decodes to the original object. -/
theorem changeGroup_round_trip {F : Type} (fl : Float64Lib F) (hfl : fl.Lawful)
    (V : String) (src : Bytes) (manifest : List (String × JValue F))
    (hdec : decodeManifest fl src = .ok (some manifest))
    (hapi : mapLookup "apiVersion" manifest = some (.str ("openshift.org/" ++ V)))
    (hV : '/' ∉ V.data) :
    ∃ outbound inbound, changeGroup fl "" src = .ok outbound ∧
      changeGroup fl "openshift.org" outbound = .ok inbound ∧
      decodeManifest fl inbound = .ok (some manifest) := by
  obtain ⟨hc, hs⟩ := decodeManifest_canon fl src manifest hdec
  have hG : '/' ∉ ("openshift.org" : String).data := by decide
  have happ : ("openshift.org/" : String) ++ V = "openshift.org" ++ "/" ++ V := by
    apply String.ext; simp [String.data_append]
  rw [happ] at hapi
  have hgv := ParseGroupVersion_of_count_le_one ("openshift.org" ++ "/" ++ V)
    (le_of_eq (count_slash_append _ V hG hV))
  rw [splitFirstSlash_append _ V hG] at hgv
  obtain ⟨h1, h2⟩ := changeGroup_of_string fl hfl "" src manifest _ _ hdec hapi hgv
  have hid : groupVersionIdentifier "" V = V := by simp [groupVersionIdentifier]
  simp only [hid] at h1 h2
  have hlook : mapLookup "apiVersion" (mapInsert "apiVersion" (JValue.str V) manifest) =
      some (.str V) := by
    rw [mapLookup_mapInsert]; simp
  have hgv2 := ParseGroupVersion_of_count_le_one V
    (by rw [List.count_eq_zero.2 hV]; omega)
  have hsplit : (splitFirstSlash V).2 = V := by
    have hdw : V.data.dropWhile (fun c => c != '/') = [] := by
      rw [List.dropWhile_eq_nil_iff]
      intro x hx
      have : x ≠ '/' := fun e => hV (e ▸ hx)
      simpa using this
    simp only [splitFirstSlash, hdw]
  obtain ⟨h3, h4⟩ := changeGroup_of_string fl hfl "openshift.org" _ _ _ _ h2 hlook hgv2
  simp only [hsplit, mapInsert_mapInsert] at h3 h4
  have hid2 : groupVersionIdentifier "openshift.org" V = "openshift.org" ++ "/" ++ V := by
    simp [groupVersionIdentifier]
  rw [hid2, mapInsert_of_lookup _ _ _ hs hapi] at h3 h4
  exact ⟨_, _, h1, h3, h4⟩

/-- C8, amended: when the first JSON value of the body is neither an object
nor `null`, or the body has no well-formed first value at all, `changeGroup`
returns an error of the JSON decoder for every target group. -/
theorem changeGroup_decode_error {F : Type} (fl : Float64Lib F) (T : String) (src : Bytes)
    (hobj : ∀ kvs, readValue src ≠ .ok (.obj kvs)) (hnull : readValue src ≠ .ok .null) :
    ∃ e : DecodeError, e ≠ .outOfFuel ∧ changeGroup fl T src = .error (.decode e) := by
  have hd : ∃ e, e ≠ DecodeError.outOfFuel ∧ decodeManifest fl src = .error e := by
    unfold decodeManifest
    cases hr : readValue src with
    | error e => exact ⟨e, fun he => readValue_budget src (he ▸ hr), rfl⟩
    | ok raw =>
      cases raw with
      | null => exact absurd hr hnull
      | obj kvs => exact absurd hr (hobj kvs)
      | bool b => exact ⟨.unmarshalType "bool" manifestType, (by intro h; cases h), rfl⟩
      | num n => exact ⟨.unmarshalType "number" manifestType, (by intro h; cases h), rfl⟩
      | str s => exact ⟨.unmarshalType "string" manifestType, (by intro h; cases h), rfl⟩
      | arr xs => exact ⟨.unmarshalType "array" manifestType, (by intro h; cases h), rfl⟩
  obtain ⟨e, hne, he⟩ := hd
  exact ⟨e, hne, by unfold changeGroup; simp only [he]⟩

/-! ## Concrete runs -/

/-- C1 at a concrete body. -/
theorem changeGroup_rewrites_group_witness :
    exactNumbers.Lawful ∧
    decodeManifest exactNumbers (utf8Bytes "\x7b\"replicas\":3,\"apiVersion\":\"openshift.org/v1\"\x7d")
      = .ok (some [("apiVersion", .str ("openshift.org" ++ "/" ++ "v1")),
                   ("replicas", .num ⟨[0x33], rfl⟩)]) ∧
    ∃ out result,
      changeGroup exactNumbers "acme.io"
        (utf8Bytes "\x7b\"replicas\":3,\"apiVersion\":\"openshift.org/v1\"\x7d") = .ok out ∧
      decodeManifest exactNumbers out = .ok (some result) ∧
      mapLookup "apiVersion" result
        = some (.str (if "acme.io" = "" then "v1" else "acme.io" ++ "/" ++ "v1")) ∧
      ∀ k, k ≠ "apiVersion" → mapLookup k result =
        mapLookup k [("apiVersion", .str ("openshift.org" ++ "/" ++ "v1")),
                     ("replicas", .num ⟨[0x33], rfl⟩)] :=
  ⟨exactNumbers_lawful, rfl,
    changeGroup_rewrites_group exactNumbers exactNumbers_lawful "acme.io" "openshift.org" "v1"
      (utf8Bytes "\x7b\"replicas\":3,\"apiVersion\":\"openshift.org/v1\"\x7d") _ rfl rfl
      (by decide) (by decide)⟩

/-- C2: the body `{"apiVersion":"openshift.org/v1/beta"}` has an `apiVersion`
of the form `openshift.org/V` with `V = v1/beta`, and the outbound rewrite
already fails on it. -/
theorem changeGroup_round_trip_fails :
    decodeManifest exactNumbers (utf8Bytes "\x7b\"apiVersion\":\"openshift.org/v1/beta\"\x7d")
      = .ok (some [("apiVersion", .str ("openshift.org/" ++ "v1/beta"))]) ∧
    changeGroup exactNumbers "" (utf8Bytes "\x7b\"apiVersion\":\"openshift.org/v1/beta\"\x7d")
      = .error (.groupVersion "openshift.org/v1/beta") :=
  ⟨rfl, rfl⟩

/-- C2, amended, at a concrete body. -/
theorem changeGroup_round_trip_witness :
    exactNumbers.Lawful ∧
    decodeManifest exactNumbers (utf8Bytes "\x7b\"kind\":\"Foo\",\"apiVersion\":\"openshift.org/v1\"\x7d")
      = .ok (some [("apiVersion", .str ("openshift.org/" ++ "v1")), ("kind", .str "Foo")]) ∧
    ∃ outbound inbound,
      changeGroup exactNumbers ""
        (utf8Bytes "\x7b\"kind\":\"Foo\",\"apiVersion\":\"openshift.org/v1\"\x7d") = .ok outbound ∧
      changeGroup exactNumbers "openshift.org" outbound = .ok inbound ∧
      decodeManifest exactNumbers inbound
        = .ok (some [("apiVersion", .str ("openshift.org/" ++ "v1")), ("kind", .str "Foo")]) :=
  ⟨exactNumbers_lawful, rfl,
    changeGroup_round_trip exactNumbers exactNumbers_lawful "v1"
      (utf8Bytes "\x7b\"kind\":\"Foo\",\"apiVersion\":\"openshift.org/v1\"\x7d") _ rfl rfl (by decide)⟩

/-- C4 at a concrete body whose `apiVersion` is a number. -/
theorem changeGroup_without_apiVersion_witness :
    exactNumbers.Lawful ∧
    decodeManifest exactNumbers (utf8Bytes "\x7b\"kind\":\"Foo\",\"apiVersion\":1\x7d")
      = .ok (some [("apiVersion", .num ⟨[0x31], rfl⟩), ("kind", .str "Foo")]) ∧
    ∃ out,
      changeGroup exactNumbers "openshift.org"
        (utf8Bytes "\x7b\"kind\":\"Foo\",\"apiVersion\":1\x7d") = .ok out ∧
      decodeManifest exactNumbers out
        = .ok (some [("apiVersion", .num ⟨[0x31], rfl⟩), ("kind", .str "Foo")]) :=
  ⟨exactNumbers_lawful, rfl,
    changeGroup_without_apiVersion exactNumbers exactNumbers_lawful "openshift.org"
      (utf8Bytes "\x7b\"kind\":\"Foo\",\"apiVersion\":1\x7d") _ rfl
      (by intro s h; simp [mapLookup] at h)⟩

/-- C8: the body `null` and a body with bytes after a complete object are
both accepted. -/
theorem changeGroup_accepts_null_and_trailing_bytes :
    changeGroup exactNumbers "openshift.org" (utf8Bytes "null") = .ok (utf8Bytes "null\n") ∧
    changeGroup exactNumbers "openshift.org" (utf8Bytes "\x7b\"kind\":\"Foo\"\x7d trailing")
      = .ok (utf8Bytes "\x7b\"kind\":\"Foo\"\x7d\n") :=
  ⟨rfl, rfl⟩

/-- C8, amended, at the body `[1]`. -/
theorem changeGroup_decode_error_witness :
    readValue (utf8Bytes "[1]") = .ok (.arr [.num [0x31]]) ∧
    ∃ e : DecodeError, e ≠ .outOfFuel ∧
      changeGroup exactNumbers "openshift.org" (utf8Bytes "[1]") = .error (.decode e) :=
  ⟨rfl, changeGroup_decode_error exactNumbers "openshift.org" (utf8Bytes "[1]")
    (by intro kvs h; rw [show readValue (utf8Bytes "[1]") = .ok (.arr [.num [0x31]]) from rfl] at h
        cases h)
    (by intro h; rw [show readValue (utf8Bytes "[1]") = .ok (.arr [.num [0x31]]) from rfl] at h
        cases h)⟩

/-- C9: on a body whose `apiVersion` is the string `a/b/c`, `changeGroup`
fails with the group-version error. -/
theorem changeGroup_two_slashes_fails :
    decodeManifest exactNumbers (utf8Bytes "\x7b\"apiVersion\":\"a/b/c\"\x7d")
      = .ok (some [("apiVersion", .str "a/b/c")]) ∧
    changeGroup exactNumbers "openshift.org" (utf8Bytes "\x7b\"apiVersion\":\"a/b/c\"\x7d")
      = .error (.groupVersion "a/b/c") :=
  ⟨rfl, rfl⟩

/-- C9, amended, at a concrete body with a bare version. -/
theorem changeGroup_at_most_one_slash_witness :
    exactNumbers.Lawful ∧
    decodeManifest exactNumbers (utf8Bytes "\x7b\"apiVersion\":\"v1\"\x7d")
      = .ok (some [("apiVersion", .str "v1")]) ∧
    ∃ out result,
      changeGroup exactNumbers "openshift.org" (utf8Bytes "\x7b\"apiVersion\":\"v1\"\x7d") = .ok out ∧
      decodeManifest exactNumbers out = .ok (some result) ∧
      mapLookup "apiVersion" result =
        some (.str (groupVersionIdentifier "openshift.org" (splitFirstSlash "v1").2)) :=
  ⟨exactNumbers_lawful, rfl,
    changeGroup_at_most_one_slash exactNumbers exactNumbers_lawful "openshift.org" "v1"
      (utf8Bytes "\x7b\"apiVersion\":\"v1\"\x7d") _ rfl rfl (by decide)⟩

/-! ## Properties of the handlers -/

/-- The handler `authInjectionHandler` hands the request to the inner handler
exactly once, and the `Authorization` values the inner handler
sees are the values the client sent followed by the injected one. -/
theorem authInjectionHandler_appends (token : String) (h : Handler) (w : ResponseWriter)
    (req : Request) :
    ∃ seen : Request, (authInjectionHandler token h w req).calls = [seen] ∧
      seen.Header.Values "Authorization" =
        req.Header.Values "Authorization" ++ ["Bearer " ++ token] := by
  refine ⟨_, rfl, ?_⟩
  simp only [Header.Values]
  rw [Header.get_Add]
  simp

/-- C3: on a request that already carries `Authorization: Bearer client`, the
inner handler of `authInjectionHandler "secret" h` sees two `Authorization`
values, the client's first; the client's value is not discarded. -/
theorem authInjectionHandler_client_value_kept :
    (authInjectionHandler "secret" (fun w _ => w) NewRecorder
        { Method := "GET", Path := "/api", Header := [("Authorization", ["Bearer client"])],
          Body := [], ContentLength := 0 }).calls.map
      (fun r => r.Header.Values "Authorization") = [["Bearer client", "Bearer secret"]] := by
  decide

/-- C5: when the input decodes as a listing with `n` groups,
`addOpenshiftAPIGroup` succeeds and writes the encoding of a listing with
`n + 1` groups: the `n` input groups in their order, then a group named
`openshift.org` whose only version is `v1` with group-version
`openshift.org/v1`, which is also its preferred version. -/
theorem addOpenshiftAPIGroup_appends (codec : GroupListCodec) (input : Bytes)
    (groupList : APIGroupList) (hdec : codec.decode input = .ok groupList) :
    ∃ out last : _, addOpenshiftAPIGroup codec input = .ok (codec.encode out) ∧
      out.typeMeta = groupList.typeMeta ∧
      out.Groups.length = groupList.Groups.length + 1 ∧
      out.Groups.take groupList.Groups.length = groupList.Groups ∧
      out.Groups.getLast? = some last ∧
      last.Name = "openshift.org" ∧
      last.Versions = [{ GroupVersion := "openshift.org/v1", Version := "v1" }] ∧
      last.PreferredVersion = { GroupVersion := "openshift.org/v1", Version := "v1" } := by
  refine ⟨{ groupList with Groups := groupList.Groups ++ [openshiftGroup] }, openshiftGroup,
    ?_, rfl, ?_, ?_, ?_, ?_, ?_, ?_⟩
  · simp [addOpenshiftAPIGroup, hdec]
  · simp
  · simp
  · simp
  · decide
  · decide
  · decide

theorem groupTransformer_of_request_error {F : Type} (fl : Float64Lib F) (h : Handler)
    (w : ResponseWriter) (req : Request) (err : GoError)
    (hget : req.Method ≠ "GET") (hdel : req.Method ≠ "DELETE")
    (hbody : changeGroup fl "" req.Body = .error err) :
    groupTransformer fl h w req = { w := ErrorResponse w err, calls := [] } := by
  have hm : req.Method ≠ MethodGet ∧ req.Method ≠ MethodDelete := ⟨hget, hdel⟩
  unfold groupTransformer rewriteRequest
  simp only [if_pos hm, hbody]

/-- C6: when the method is neither GET nor DELETE and `changeGroup` fails on
the request body, `groupTransformer` answers with status 500, the single
`Content-Type` value `application/json` and the error envelope as body, and
never calls the inner handler. -/
theorem groupTransformer_request_error {F : Type} (fl : Float64Lib F) (h : Handler)
    (hdr : Header) (req : Request) (err : GoError)
    (hget : req.Method ≠ "GET") (hdel : req.Method ≠ "DELETE")
    (hbody : changeGroup fl "" req.Body = .error err) :
    (groupTransformer fl h { header := hdr, status := none, body := [] } req).calls = [] ∧
    (groupTransformer fl h { header := hdr, status := none, body := [] } req).w.status
      = some 500 ∧
    (groupTransformer fl h { header := hdr, status := none, body := [] } req).w.header.Values
      "Content-Type" = ["application/json"] ∧
    (groupTransformer fl h { header := hdr, status := none, body := [] } req).w.body
      = utf8Bytes ("\x7b\"error\":\"" ++ err.Error ++ "\"\x7d") := by
  rw [groupTransformer_of_request_error fl h _ req err hget hdel hbody]
  refine ⟨rfl, rfl, ?_, ?_⟩
  · simp only [ErrorResponse, ResponseWriter.Write, ResponseWriter.WriteHeader, Header.Values]
    rw [Header.get_Set]
    simp
  · simp [ErrorResponse, ResponseWriter.Write, ResponseWriter.WriteHeader]

/-- C7: when the request rewrite and the response rewrite both succeed,
`groupTransformer` calls the inner handler once and answers with the status
code of the recorded response, the rewritten recorded body, a single
`Content-Length` value that is the decimal length of that body, and under
every other header name the values already on the writer followed by the
recorded values of that name. -/
theorem groupTransformer_response {F : Type} (fl : Float64Lib F) (h : Handler)
    (hdr : Header) (req upstreamReq : Request) (buf : Bytes)
    (hreq : rewriteRequest fl req = .ok upstreamReq)
    (hres : changeGroup fl "openshift.org" (h NewRecorder upstreamReq).body = .ok buf) :
    (groupTransformer fl h { header := hdr, status := none, body := [] } req).calls
      = [upstreamReq] ∧
    (groupTransformer fl h { header := hdr, status := none, body := [] } req).w.status
      = some (h NewRecorder upstreamReq).Code ∧
    (groupTransformer fl h { header := hdr, status := none, body := [] } req).w.body = buf ∧
    (groupTransformer fl h { header := hdr, status := none, body := [] } req).w.header.Values
      "Content-Length" = [toString buf.length] ∧
    ∀ key : String, CanonicalMIMEHeaderKey key ≠ "Content-Length" →
      (groupTransformer fl h { header := hdr, status := none, body := [] } req).w.header.Values key
        = hdr.Values key ++
          recordedValues (h NewRecorder upstreamReq).header (CanonicalMIMEHeaderKey key) := by
  have hcl : CanonicalMIMEHeaderKey "Content-Length" = "Content-Length" := by decide
  have hg : group = "openshift.org" := rfl
  have e : groupTransformer fl h { header := hdr, status := none, body := [] } req =
      { w := { header := (copyHeader hdr (h NewRecorder upstreamReq).header).Set
                 "Content-Length" (toString buf.length),
               status := some (h NewRecorder upstreamReq).Code, body := buf },
        calls := [upstreamReq] } := by
    unfold groupTransformer
    simp only [hreq, hg, hres, ResponseWriter.Write, ResponseWriter.WriteHeader, List.nil_append]
  rw [e]
  refine ⟨rfl, rfl, rfl, ?_, ?_⟩
  · simp only [Header.Values]
    rw [Header.get_Set]
    simp
  · intro key hkey
    simp only [Header.Values]
    rw [Header.get_Set, hcl, if_neg hkey, get_copyHeader]

/-- C10: for the request body `{"apiVersion":"a/b/\""}` the error of
`changeGroup` has a message with a double quote, `ErrorResponse` copies it
into the body unescaped, and the body is not a JSON document: the reader
stops at the quote with a syntax error. -/
theorem ErrorResponse_body_not_json {F : Type} (fl : Float64Lib F) :
    changeGroup fl "" (utf8Bytes "\x7b\"apiVersion\":\"a/b/\\\"\"\x7d") = .error (.groupVersion "a/b/\"") ∧
    (ErrorResponse NewRecorder (.groupVersion "a/b/\"")).body
      = utf8Bytes "\x7b\"error\":\"unexpected GroupVersion string: a/b/\"\"\x7d" ∧
    decodeManifest fl (ErrorResponse NewRecorder (.groupVersion "a/b/\"")).body
      = .error (.invalidCharacter 0x22 "after object key:value pair") := by
  refine ⟨rfl, rfl, rfl⟩

/-- C5 at a concrete codec and body. -/
theorem addOpenshiftAPIGroup_appends_witness :
    sampleCodec.decode [] = .ok sampleListing ∧
    ∃ out last : _, addOpenshiftAPIGroup sampleCodec [] = .ok (sampleCodec.encode out) ∧
      out.typeMeta = sampleListing.typeMeta ∧
      out.Groups.length = sampleListing.Groups.length + 1 ∧
      out.Groups.take sampleListing.Groups.length = sampleListing.Groups ∧
      out.Groups.getLast? = some last ∧
      last.Name = "openshift.org" ∧
      last.Versions = [{ GroupVersion := "openshift.org/v1", Version := "v1" }] ∧
      last.PreferredVersion = { GroupVersion := "openshift.org/v1", Version := "v1" } :=
  ⟨rfl, addOpenshiftAPIGroup_appends sampleCodec [] sampleListing rfl⟩

/-- C6 at a POST request whose body is the single byte `{`. -/
theorem groupTransformer_request_error_witness :
    ("POST" : String) ≠ "GET" ∧ ("POST" : String) ≠ "DELETE" ∧
    changeGroup exactNumbers "" [0x7B] = .error (.decode .unexpectedEOF) ∧
    (groupTransformer exactNumbers echoUpstream { header := [], status := none, body := [] }
      { Method := "POST", Path := "/oapi/v1/foos", Header := [], Body := [0x7B],
        ContentLength := 1 }).calls = [] ∧
    (groupTransformer exactNumbers echoUpstream { header := [], status := none, body := [] }
      { Method := "POST", Path := "/oapi/v1/foos", Header := [], Body := [0x7B],
        ContentLength := 1 }).w.status = some 500 ∧
    (groupTransformer exactNumbers echoUpstream { header := [], status := none, body := [] }
      { Method := "POST", Path := "/oapi/v1/foos", Header := [], Body := [0x7B],
        ContentLength := 1 }).w.header.Values "Content-Type" = ["application/json"] ∧
    (groupTransformer exactNumbers echoUpstream { header := [], status := none, body := [] }
      { Method := "POST", Path := "/oapi/v1/foos", Header := [], Body := [0x7B],
        ContentLength := 1 }).w.body
      = utf8Bytes ("\x7b\"error\":\"" ++ (GoError.decode .unexpectedEOF).Error ++ "\"\x7d") :=
  ⟨by decide, by decide, rfl,
    groupTransformer_request_error exactNumbers echoUpstream []
      { Method := "POST", Path := "/oapi/v1/foos", Header := [], Body := [0x7B],
        ContentLength := 1 } (.decode .unexpectedEOF) (by decide) (by decide) rfl⟩

/-- C7 at a POST request that the upstream echoes. -/
theorem groupTransformer_response_witness :
    rewriteRequest exactNumbers
      { Method := "POST", Path := "/oapi/v1/foos", Header := [],
        Body := utf8Bytes "\x7b\"apiVersion\":\"openshift.org/v1\"\x7d", ContentLength := 33 }
      = .ok { Method := "POST", Path := "/oapi/v1/foos", Header := [],
              Body := utf8Bytes "\x7b\"apiVersion\":\"v1\"\x7d\n", ContentLength := 20 } ∧
    changeGroup exactNumbers "openshift.org" (utf8Bytes "\x7b\"apiVersion\":\"v1\"\x7d\n")
      = .ok (utf8Bytes "\x7b\"apiVersion\":\"openshift.org/v1\"\x7d\n") ∧
    (groupTransformer exactNumbers echoUpstream { header := [], status := none, body := [] }
      { Method := "POST", Path := "/oapi/v1/foos", Header := [],
        Body := utf8Bytes "\x7b\"apiVersion\":\"openshift.org/v1\"\x7d", ContentLength := 33 }).calls
      = [{ Method := "POST", Path := "/oapi/v1/foos", Header := [],
           Body := utf8Bytes "\x7b\"apiVersion\":\"v1\"\x7d\n", ContentLength := 20 }] ∧
    (groupTransformer exactNumbers echoUpstream { header := [], status := none, body := [] }
      { Method := "POST", Path := "/oapi/v1/foos", Header := [],
        Body := utf8Bytes "\x7b\"apiVersion\":\"openshift.org/v1\"\x7d", ContentLength := 33 }).w.status
      = some 201 ∧
    (groupTransformer exactNumbers echoUpstream { header := [], status := none, body := [] }
      { Method := "POST", Path := "/oapi/v1/foos", Header := [],
        Body := utf8Bytes "\x7b\"apiVersion\":\"openshift.org/v1\"\x7d", ContentLength := 33 }).w.body
      = utf8Bytes "\x7b\"apiVersion\":\"openshift.org/v1\"\x7d\n" ∧
    (groupTransformer exactNumbers echoUpstream { header := [], status := none, body := [] }
      { Method := "POST", Path := "/oapi/v1/foos", Header := [],
        Body := utf8Bytes "\x7b\"apiVersion\":\"openshift.org/v1\"\x7d", ContentLength := 33 }).w.header.Values
      "Content-Length" = ["34"] ∧
    ∀ key : String, CanonicalMIMEHeaderKey key ≠ "Content-Length" →
      (groupTransformer exactNumbers echoUpstream { header := [], status := none, body := [] }
        { Method := "POST", Path := "/oapi/v1/foos", Header := [],
          Body := utf8Bytes "\x7b\"apiVersion\":\"openshift.org/v1\"\x7d",
          ContentLength := 33 }).w.header.Values key
        = Header.Values [] key ++
          recordedValues [("X-Upstream", ["1"])] (CanonicalMIMEHeaderKey key) :=
  ⟨rfl, rfl,
    groupTransformer_response exactNumbers echoUpstream []
      { Method := "POST", Path := "/oapi/v1/foos", Header := [],
        Body := utf8Bytes "\x7b\"apiVersion\":\"openshift.org/v1\"\x7d", ContentLength := 33 }
      { Method := "POST", Path := "/oapi/v1/foos", Header := [],
        Body := utf8Bytes "\x7b\"apiVersion\":\"v1\"\x7d\n", ContentLength := 20 }
      (utf8Bytes "\x7b\"apiVersion\":\"openshift.org/v1\"\x7d\n") rfl rfl⟩

end OpenshiftApiGroup
